import Mathlib

/-!
Verification of the coordination core of perfomaV3: the shared instruction
queue (`backend/agent/shared_queue.py`), the inter-agent collaboration bus
(`backend/agent/collaboration.py`), and the throttling / rate-limiting
subsystem (`agent/agent/throttle.py`).

The Python code is shallowly embedded: each method becomes a pure Lean
function on an explicit state record.  Wall-clock timestamps (Python
`datetime.now()`) are passed in as explicit numeric parameters, and the
random jitter values (`random.uniform`) are likewise explicit parameters.
Python dictionaries are modelled as insertion-ordered association lists,
matching CPython's ordered-dict semantics.
-/

namespace SharedQueue

/-- One queue entry, mirroring the dict built in
`SharedInstructionQueue.add_instructions`.  The `result` and `error` keys
are absent until set, hence `Option`.  Timestamps are abstract integers. -/
structure Instruction where
  id : Nat
  command : String
  status : String
  added_at : Int
  claimed_by : Option String
  started_at : Option Int
  completed_at : Option Int
  result : Option String
  error : Option String
deriving DecidableEq, Repr

/-- State of a `SharedInstructionQueue` (listeners omitted: they receive
read-only snapshots and never influence the queue state). -/
structure QueueState where
  instructions : List Instruction
  instruction_counter : Nat
  executed_instructions : List Instruction
  max_executed_history : Nat := 25
  max_instructions : Nat := 50
deriving Repr

/-- The empty queue produced by `SharedInstructionQueue.__init__`. -/
def initQueue : QueueState :=
  { instructions := [], instruction_counter := 0, executed_instructions := [] }

/-- Python `str.strip()`: drop whitespace from both ends (modelled over
the character list so that it evaluates by reduction). -/
def pyStrip (s : String) : String :=
  String.mk
    (((s.data.dropWhile Char.isWhitespace).reverse.dropWhile
      Char.isWhitespace).reverse)

/-- Python slicing `s[:n]`: the first `n` characters. -/
def pyTake (s : String) (n : Nat) : String := String.mk (s.data.take n)

/-- Python `list.remove`: delete the first element equal to `v` (no-op when
absent). -/
def removeFirst (l : List Instruction) (v : Instruction) : List Instruction :=
  match l with
  | [] => []
  | x :: xs => if x = v then xs else x :: removeFirst xs v

/-- Status test used throughout the queue code. -/
def isPending (i : Instruction) : Bool := i.status == "pending"

/-- Status test for executing items. -/
def isExecuting (i : Instruction) : Bool := i.status == "executing"

/-- The pending sublist, in insertion order. -/
def pendingList (s : QueueState) : List Instruction :=
  s.instructions.filter isPending

/-- `SharedInstructionQueue._trim_instructions`: if more than
`max_instructions` items are pending, `list.remove` each of the oldest
`excess` pending items. -/
def trim_instructions (s : QueueState) : QueueState :=
  if (s.instructions.filter isPending).length > s.max_instructions then
    { s with instructions :=
        (((s.instructions.filter isPending).take
          ((s.instructions.filter isPending).length -
            s.max_instructions))).foldl removeFirst s.instructions }
  else s

/-- `SharedInstructionQueue._trim_executed_history`: drop the oldest
entries beyond `max_executed_history`. -/
def trim_executed_history (s : QueueState) : QueueState :=
  if s.executed_instructions.length > s.max_executed_history then
    { s with executed_instructions :=
        s.executed_instructions.drop (s.executed_instructions.length - s.max_executed_history) }
  else s

/-- The fresh pending item appended for a non-blank command. -/
def freshItem (idv : Nat) (cmd : String) (now : Int) : Instruction :=
  { id := idv, command := pyStrip cmd, status := "pending", added_at := now,
    claimed_by := none, started_at := none, completed_at := none,
    result := none, error := none }

/-- Loop body of `add_instructions`: skip blank commands, append the rest. -/
def addLoop (now : Int) : QueueState × Nat → String → QueueState × Nat :=
  fun p cmd =>
    if cmd ≠ "" ∧ pyStrip cmd ≠ "" then
      let s := p.1
      let s' := { s with
        instruction_counter := s.instruction_counter + 1,
        instructions :=
          s.instructions ++ [freshItem (s.instruction_counter + 1) cmd now] }
      (s', p.2 + 1)
    else p

/-- `SharedInstructionQueue.add_instructions`: append every non-blank
command as a fresh pending item, then trim; returns the number added. -/
def add_instructions (s : QueueState) (commands : List String) (now : Int) :
    QueueState × Nat :=
  let p := commands.foldl (addLoop now) (s, 0)
  (trim_instructions p.1, p.2)

/-- `SharedInstructionQueue.add_instruction`: append a single non-blank
command (note: this method performs no trimming); returns the new id, or
`-1` when the command is blank. -/
def add_instruction (s : QueueState) (command : String) (now : Int) :
    QueueState × Int :=
  if command ≠ "" ∧ pyStrip command ≠ "" then
    let s' := { s with
      instruction_counter := s.instruction_counter + 1,
      instructions :=
        s.instructions ++ [freshItem (s.instruction_counter + 1) command now] }
    (s', Int.ofNat (s.instruction_counter + 1))
  else (s, -1)

/-- The in-place mutation performed by `claim_next` on the claimed item. -/
def claimFlip (i : Instruction) (agent_id : String) (now : Int) : Instruction :=
  { i with
    status := "executing"
    claimed_by := some agent_id
    started_at := some now }

/-- Scan of `claim_next`: find the first pending item, flip it, return the
updated list together with (the copy of) the flipped item. -/
def claimAux (agent_id : String) (now : Int) :
    List Instruction → Option (List Instruction × Instruction)
  | [] => none
  | i :: rest =>
    if isPending i then
      some (claimFlip i agent_id now :: rest, claimFlip i agent_id now)
    else
      match claimAux agent_id now rest with
      | some (rest', c) => some (i :: rest', c)
      | none => none

/-- `SharedInstructionQueue.claim_next`. -/
def claim_next (s : QueueState) (agent_id : String) (now : Int) :
    QueueState × Option Instruction :=
  match claimAux agent_id now s.instructions with
  | some (l, c) => ({ s with instructions := l }, some c)
  | none => (s, none)

/-- The completed copy appended to the history by `complete_instruction`
(`result[:500] if result else ""`). -/
def completedCopy (i : Instruction) (result : String) (now : Int) :
    Instruction :=
  { i with
    status := "completed"
    completed_at := some now
    result := some (if result ≠ "" then pyTake result 500 else "") }

/-- Scan of `complete_instruction`: find the first item matching both the
id and the claimant, remove it from the active list and return its
completed copy. -/
def completeAux (iid : Nat) (agent_id : String) (result : String) (now : Int) :
    List Instruction → Option (List Instruction × Instruction)
  | [] => none
  | i :: rest =>
    if i.id = iid ∧ i.claimed_by = some agent_id then
      some (rest, completedCopy i result now)
    else
      match completeAux iid agent_id result now rest with
      | some (rest', c) => some (i :: rest', c)
      | none => none

/-- `SharedInstructionQueue.complete_instruction`. -/
def complete_instruction (s : QueueState) (iid : Nat) (agent_id : String)
    (result : String) (now : Int) : QueueState × Bool :=
  match completeAux iid agent_id result now s.instructions with
  | some (l, c) =>
    (trim_executed_history
      { s with
        instructions := l
        executed_instructions := s.executed_instructions ++ [c] }, true)
  | none => (s, false)

/-- The in-place mutation performed by `fail_instruction`. -/
def failRevert (i : Instruction) (error : String) : Instruction :=
  { i with
    status := "pending"
    claimed_by := none
    started_at := none
    error := some error }

/-- Scan of `fail_instruction`: revert the first item matching both the id
and the claimant back to pending. -/
def failAux (iid : Nat) (agent_id : String) (error : String) :
    List Instruction → Option (List Instruction)
  | [] => none
  | i :: rest =>
    if i.id = iid ∧ i.claimed_by = some agent_id then
      some (failRevert i error :: rest)
    else
      match failAux iid agent_id error rest with
      | some rest' => some (i :: rest')
      | none => none

/-- `SharedInstructionQueue.fail_instruction`. -/
def fail_instruction (s : QueueState) (iid : Nat) (agent_id : String)
    (error : String) : QueueState × Bool :=
  match failAux iid agent_id error s.instructions with
  | some l => ({ s with instructions := l }, true)
  | none => (s, false)

/-- `SharedInstructionQueue.clear_queue`: keep only executing items. -/
def clear_queue (s : QueueState) : QueueState :=
  { s with instructions := s.instructions.filter isExecuting }

/-- `SharedInstructionQueue.remove_instruction`. -/
def remove_instruction (s : QueueState) (iid : Nat) : QueueState × Bool :=
  match s.instructions.filter (fun i => i.id = iid) with
  | [] => (s, false)
  | _ :: _ =>
    ({ s with instructions :=
        s.instructions.eraseP (fun i => i.id == iid) }, true)

/-- `SharedInstructionQueue.edit_instruction`: rewrite the command of the
first pending item with the given id. -/
def editAux (iid : Nat) (new_command : String) :
    List Instruction → Option (List Instruction)
  | [] => none
  | i :: rest =>
    if i.id = iid ∧ i.status = "pending" then
      some ({ i with command := pyStrip new_command } :: rest)
    else
      match editAux iid new_command rest with
      | some rest' => some (i :: rest')
      | none => none

/-- `SharedInstructionQueue.edit_instruction`. -/
def edit_instruction (s : QueueState) (iid : Nat) (new_command : String) :
    QueueState × Bool :=
  match editAux iid new_command s.instructions with
  | some l => ({ s with instructions := l }, true)
  | none => (s, false)

/-- Number of pending items. -/
def pendingCount (s : QueueState) : Nat := (pendingList s).length

/-- Well-formedness of a single item: pending items are unclaimed and
executing items are claimed.  (This is the implicit invariant the
ownership checks of `complete_instruction` / `fail_instruction` rely on.) -/
def itemWF (i : Instruction) : Bool :=
  (i.status == "pending" && i.claimed_by == none) ||
  (i.status == "executing" && i.claimed_by != none)

/-- Well-formedness of the active list. -/
def WF (s : QueueState) : Bool := s.instructions.all itemWF

/-- A sequence of `claim_next` calls by the given worker ids, collecting
the successfully claimed copies. -/
def claimSeq (s : QueueState) (now : Int) : List String → QueueState × List Instruction
  | [] => (s, [])
  | w :: ws =>
    match claim_next s w now with
    | (s', some c) =>
      let p := claimSeq s' now ws
      (p.1, c :: p.2)
    | (s', none) => claimSeq s' now ws

end SharedQueue

namespace SharedQueue

theorem claimFlip_not_pending (i : Instruction) (a : String) (t : Int) :
    isPending (claimFlip i a t) = false := rfl

theorem claimFlip_id (i : Instruction) (a : String) (t : Int) :
    (claimFlip i a t).id = i.id := rfl

theorem claimAux_of_no_pending (a : String) (t : Int) (l : List Instruction)
    (h : ∀ j ∈ l, isPending j = false) : claimAux a t l = none := by
  induction l with
  | nil => rfl
  | cons x xs ih =>
    have hx : isPending x = false := h x (by simp)
    simp only [claimAux, hx, Bool.false_eq_true, if_false]
    rw [ih (fun j hj => h j (by simp [hj]))]

theorem claimAux_append (a : String) (t : Int) (l1 : List Instruction)
    (i : Instruction) (l2 : List Instruction)
    (h1 : ∀ j ∈ l1, isPending j = false) (hi : isPending i = true) :
    claimAux a t (l1 ++ i :: l2) =
      some (l1 ++ claimFlip i a t :: l2, claimFlip i a t) := by
  induction l1 with
  | nil => simp [claimAux, hi]
  | cons x xs ih =>
    have hx : isPending x = false := h1 x (by simp)
    have ih' := ih (fun j hj => h1 j (by simp [hj]))
    simp [claimAux, hx, ih']

theorem claimAux_filter (a : String) (t : Int) (l : List Instruction) :
    (l.filter isPending = [] → claimAux a t l = none) ∧
    (∀ i rest, l.filter isPending = i :: rest →
      ∃ l', claimAux a t l = some (l', claimFlip i a t) ∧
        l'.filter isPending = rest ∧
        l'.map Instruction.id = l.map Instruction.id) := by
  induction l with
  | nil => exact ⟨fun _ => rfl, fun i rest h => by simp at h⟩
  | cons x xs ih =>
    by_cases hx : isPending x
    · refine ⟨fun h => ?_, fun i rest h => ?_⟩
      · rw [List.filter_cons_of_pos hx] at h; exact absurd h (by simp)
      · rw [List.filter_cons_of_pos hx] at h
        obtain ⟨hi, hrest⟩ : x = i ∧ xs.filter isPending = rest := by
          constructor <;> [exact (List.cons_eq_cons.mp h).1;
            exact (List.cons_eq_cons.mp h).2]
        subst hi
        refine ⟨claimFlip x a t :: xs, ?_, ?_, ?_⟩
        · simp [claimAux, hx]
        · rw [List.filter_cons_of_neg (by simp [claimFlip_not_pending])]
          exact hrest
        · simp [claimFlip_id]
    · have hx' : isPending x = false := by simpa using hx
      refine ⟨fun h => ?_, fun i rest h => ?_⟩
      · rw [List.filter_cons_of_neg (by simp [hx'])] at h
        simp only [claimAux, hx', Bool.false_eq_true, if_false]
        rw [ih.1 h]
      · rw [List.filter_cons_of_neg (by simp [hx'])] at h
        obtain ⟨l', hcl, hfl, hids⟩ := ih.2 i rest h
        refine ⟨x :: l', ?_, ?_, ?_⟩
        · simp only [claimAux, hx', Bool.false_eq_true, if_false]
          rw [hcl]
        · rw [List.filter_cons_of_neg (by simp [hx'])]; exact hfl
        · simp [hids]

theorem claim_next_of_pending_nil (s : QueueState) (a : String) (t : Int)
    (h : pendingList s = []) : claim_next s a t = (s, none) := by
  unfold claim_next
  rw [(claimAux_filter a t s.instructions).1 h]

theorem claim_next_of_pending_cons (s : QueueState) (a : String) (t : Int)
    (i : Instruction) (rest : List Instruction)
    (h : pendingList s = i :: rest) :
    ∃ s', claim_next s a t = (s', some (claimFlip i a t)) ∧
      pendingList s' = rest ∧
      s'.instructions.map Instruction.id = s.instructions.map Instruction.id := by
  obtain ⟨l', hcl, hfl, hids⟩ := (claimAux_filter a t s.instructions).2 i rest h
  refine ⟨{ s with instructions := l' }, ?_, hfl, hids⟩
  unfold claim_next
  rw [hcl]

theorem claimSeq_ids (t : Int) (ws : List String) (s : QueueState) :
    (claimSeq s t ws).2.map Instruction.id =
      ((pendingList s).map Instruction.id).take ws.length := by
  induction ws generalizing s with
  | nil => simp [claimSeq]
  | cons w ws ih =>
    rcases hp : pendingList s with _ | ⟨i, rest⟩
    · have hcl := claim_next_of_pending_nil s w t hp
      simp only [claimSeq, hcl, hp]
      rw [ih]
      simp [hp]
    · obtain ⟨s', hcl, hfl, _⟩ := claim_next_of_pending_cons s w t i rest hp
      simp only [claimSeq, hcl, hp]
      simp only [List.map_cons, List.length_cons, List.take_succ_cons]
      rw [claimFlip_id, ih s', hfl]

theorem pendingList_sublist (s : QueueState) :
    (pendingList s).Sublist s.instructions :=
  List.filter_sublist s.instructions

/-- C1: `claim_next` flips the first pending item in insertion order to
executing with `claimed_by` the calling worker and returns the flipped
copy, returns nothing when no pending item exists, and any sequence of
`claim_next` calls on a queue whose item ids are distinct yields exactly
`min (number of calls) (number of pending items)` successful claims whose
returned item ids are pairwise distinct. -/
theorem claim_next_correct (s : QueueState) (a : String) (t : Int)
    (ws : List String)
    (hnd : (s.instructions.map Instruction.id).Nodup) :
    ((∀ j ∈ s.instructions, isPending j = false) → claim_next s a t = (s, none)) ∧
    (∀ l1 i l2, s.instructions = l1 ++ i :: l2 →
      (∀ j ∈ l1, isPending j = false) → isPending i = true →
      claim_next s a t =
        ({ s with instructions := l1 ++ claimFlip i a t :: l2 },
          some (claimFlip i a t))) ∧
    (claimSeq s t ws).2.length = min ws.length (pendingCount s) ∧
    ((claimSeq s t ws).2.map Instruction.id).Nodup := by
  refine ⟨?_, ?_, ?_, ?_⟩
  · intro h
    unfold claim_next
    rw [claimAux_of_no_pending a t s.instructions h]
  · intro l1 i l2 hs h1 hi
    unfold claim_next
    rw [hs, claimAux_append a t l1 i l2 h1 hi]
  · have h := claimSeq_ids t ws s
    have hlen := congrArg List.length h
    simpa [pendingCount] using hlen
  · rw [claimSeq_ids t ws s]
    refine List.Nodup.sublist (List.take_sublist _ _) ?_
    exact ((pendingList_sublist s).map Instruction.id).nodup hnd

/-- Sample pending item used in concrete witnesses. -/
def sampleItem (n : Nat) : Instruction := freshItem n ("cmd" ++ toString n) 0

/-- Sample two-pending-item queue used in concrete witnesses. -/
def sampleQueue : QueueState :=
  { instructions := [sampleItem 1, sampleItem 2]
    instruction_counter := 2
    executed_instructions := [] }

/-- C1 witness: the sequence property instantiated on a concrete queue
with two pending items and three claiming workers. -/
theorem claim_next_correct_witness :
    (sampleQueue.instructions.map Instruction.id).Nodup ∧
    (claimSeq sampleQueue 0 ["w1", "w2", "w3"]).2.length =
      min 3 (pendingCount sampleQueue) := by
  refine ⟨by decide, ?_⟩
  have h := (claim_next_correct sampleQueue "w1" 0 ["w1", "w2", "w3"]
    (by decide)).2.2.1
  simpa using h

end SharedQueue

namespace SharedQueue

theorem completeAux_of_no_match (iid : Nat) (a res : String) (t : Int)
    (l : List Instruction)
    (h : ∀ i ∈ l, ¬(i.id = iid ∧ i.claimed_by = some a)) :
    completeAux iid a res t l = none := by
  induction l with
  | nil => rfl
  | cons x xs ih =>
    have hx := h x (by simp)
    simp only [completeAux, if_neg hx]
    rw [ih (fun j hj => h j (by simp [hj]))]

theorem completeAux_eq_some (iid : Nat) (a res : String) (t : Int)
    (l : List Instruction) :
    ∀ l' c, completeAux iid a res t l = some (l', c) →
    ∃ l1 i l2, l = l1 ++ i :: l2 ∧ i.id = iid ∧ i.claimed_by = some a ∧
      (∀ j ∈ l1, ¬(j.id = iid ∧ j.claimed_by = some a)) ∧
      l' = l1 ++ l2 ∧ c = completedCopy i res t := by
  induction l with
  | nil => intro l' c h; simp [completeAux] at h
  | cons x xs ih =>
    intro l' c h
    by_cases hx : x.id = iid ∧ x.claimed_by = some a
    · refine ⟨[], x, xs, by simp, hx.1, hx.2, by simp, ?_, ?_⟩
      · simp only [completeAux, if_pos hx, Option.some.injEq, Prod.mk.injEq] at h
        simp [← h.1]
      · simp only [completeAux, if_pos hx, Option.some.injEq, Prod.mk.injEq] at h
        exact h.2.symm
    · simp only [completeAux, if_neg hx] at h
      rcases hrec : completeAux iid a res t xs with _ | ⟨rest', c'⟩
      · rw [hrec] at h; simp at h
      · rw [hrec] at h
        simp only [Option.some.injEq, Prod.mk.injEq] at h
        obtain ⟨l1, i, l2, hxs, hid, hcl, hnone, hl', hc⟩ := ih rest' c' hrec
        refine ⟨x :: l1, i, l2, by simp [hxs], hid, hcl, ?_, ?_, ?_⟩
        · intro j hj
          rcases List.mem_cons.mp hj with hj | hj
          · subst hj; exact hx
          · exact hnone j hj
        · rw [← h.1, hl']; rfl
        · rw [← h.2]; exact hc

theorem failAux_of_no_match (iid : Nat) (a err : String)
    (l : List Instruction)
    (h : ∀ i ∈ l, ¬(i.id = iid ∧ i.claimed_by = some a)) :
    failAux iid a err l = none := by
  induction l with
  | nil => rfl
  | cons x xs ih =>
    have hx := h x (by simp)
    simp only [failAux, if_neg hx]
    rw [ih (fun j hj => h j (by simp [hj]))]

theorem failAux_eq_some (iid : Nat) (a err : String)
    (l : List Instruction) :
    ∀ l', failAux iid a err l = some l' →
    ∃ l1 i l2, l = l1 ++ i :: l2 ∧ i.id = iid ∧ i.claimed_by = some a ∧
      (∀ j ∈ l1, ¬(j.id = iid ∧ j.claimed_by = some a)) ∧
      l' = l1 ++ failRevert i err :: l2 := by
  induction l with
  | nil => intro l' h; simp [failAux] at h
  | cons x xs ih =>
    intro l' h
    by_cases hx : x.id = iid ∧ x.claimed_by = some a
    · simp only [failAux, if_pos hx, Option.some.injEq] at h
      exact ⟨[], x, xs, by simp, hx.1, hx.2, by simp, by simp [← h]⟩
    · simp only [failAux, if_neg hx] at h
      rcases hrec : failAux iid a err xs with _ | rest'
      · rw [hrec] at h; simp at h
      · rw [hrec] at h
        simp only [Option.some.injEq] at h
        obtain ⟨l1, i, l2, hxs, hid, hcl, hnone, hl'⟩ := ih rest' hrec
        refine ⟨x :: l1, i, l2, by simp [hxs], hid, hcl, ?_, ?_⟩
        · intro j hj
          rcases List.mem_cons.mp hj with hj | hj
          · subst hj; exact hx
          · exact hnone j hj
        · rw [← h, hl']; rfl

theorem WF_claimed_executing (s : QueueState) (hwf : WF s = true)
    (i : Instruction) (hi : i ∈ s.instructions) (w : String)
    (hc : i.claimed_by = some w) : i.status = "executing" := by
  have hall := List.all_eq_true.mp hwf i hi
  simp only [itemWF, hc, Bool.or_eq_true, Bool.and_eq_true, beq_iff_eq] at hall
  rcases hall with ⟨_, hnone⟩ | ⟨hexec, _⟩
  · cases hnone
  · exact hexec

/-- C2: `complete_instruction` succeeds only on an item that is executing
and claimed by the given worker (in a well-formed queue), moving its
completed copy into the trimmed history and removing it from the active
list; `fail_instruction` succeeds only on a matching claim, reverting the
item to pending with `claimed_by` cleared; when no active item carries the
given id with the given claimant, both return false and leave the state
unchanged. -/
theorem complete_fail_ownership (s : QueueState) (iid : Nat)
    (a res err : String) (t : Int) (hwf : WF s = true) :
    (∀ s', complete_instruction s iid a res t = (s', true) →
      ∃ l1 i l2, s.instructions = l1 ++ i :: l2 ∧ i.id = iid ∧
        i.claimed_by = some a ∧ i.status = "executing" ∧
        s' = trim_executed_history
          { s with
            instructions := l1 ++ l2
            executed_instructions :=
              s.executed_instructions ++ [completedCopy i res t] }) ∧
    (∀ s', fail_instruction s iid a err = (s', true) →
      ∃ l1 i l2, s.instructions = l1 ++ i :: l2 ∧ i.id = iid ∧
        i.claimed_by = some a ∧ i.status = "executing" ∧
        s' = { s with instructions := l1 ++ failRevert i err :: l2 }) ∧
    ((∀ i ∈ s.instructions, i.id = iid → i.claimed_by ≠ some a) →
      complete_instruction s iid a res t = (s, false) ∧
      fail_instruction s iid a err = (s, false)) := by
  refine ⟨?_, ?_, ?_⟩
  · intro s' hs'
    unfold complete_instruction at hs'
    rcases hc : completeAux iid a res t s.instructions with _ | ⟨l, c⟩
    · rw [hc] at hs'; simp at hs'
    · rw [hc] at hs'
      obtain ⟨l1, i, l2, hdec, hid, hclaim, _, hl, hcc⟩ :=
        completeAux_eq_some iid a res t s.instructions l c hc
      have hmem : i ∈ s.instructions := by rw [hdec]; simp
      refine ⟨l1, i, l2, hdec, hid, hclaim,
        WF_claimed_executing s hwf i hmem a hclaim, ?_⟩
      simp only [Prod.mk.injEq] at hs'
      rw [← hs'.1, hl, hcc]
  · intro s' hs'
    unfold fail_instruction at hs'
    rcases hc : failAux iid a err s.instructions with _ | l
    · rw [hc] at hs'; simp at hs'
    · rw [hc] at hs'
      obtain ⟨l1, i, l2, hdec, hid, hclaim, _, hl⟩ :=
        failAux_eq_some iid a err s.instructions l hc
      have hmem : i ∈ s.instructions := by rw [hdec]; simp
      refine ⟨l1, i, l2, hdec, hid, hclaim,
        WF_claimed_executing s hwf i hmem a hclaim, ?_⟩
      simp only [Prod.mk.injEq] at hs'
      rw [← hs'.1, hl]
  · intro hmis
    have hno : ∀ i ∈ s.instructions, ¬(i.id = iid ∧ i.claimed_by = some a) :=
      fun i hi h => hmis i hi h.1 h.2
    constructor
    · unfold complete_instruction
      rw [completeAux_of_no_match iid a res t s.instructions hno]
    · unfold fail_instruction
      rw [failAux_of_no_match iid a err s.instructions hno]

/-- Sample queue holding one executing item claimed by worker `w1` and one
pending item, used in concrete witnesses. -/
def sampleExecQueue : QueueState :=
  { instructions := [claimFlip (sampleItem 1) "w1" 0, sampleItem 2]
    instruction_counter := 2
    executed_instructions := [] }

/-- C2 witness: on a concrete well-formed queue, a worker that does not
own the claim can neither complete nor fail the item. -/
theorem complete_fail_ownership_witness :
    WF sampleExecQueue = true ∧
    complete_instruction sampleExecQueue 1 "w2" "r" 0 = (sampleExecQueue, false) ∧
    fail_instruction sampleExecQueue 1 "w2" "e" = (sampleExecQueue, false) := by
  refine ⟨by decide, ?_⟩
  exact (complete_fail_ownership sampleExecQueue 1 "w2" "r" "e" 0
    (by decide)).2.2 (by decide)

end SharedQueue

namespace SharedQueue

theorem itemWF_freshItem (idv : Nat) (cmd : String) (now : Int) :
    itemWF (freshItem idv cmd now) = true := rfl

theorem itemWF_claimFlip (i : Instruction) (a : String) (t : Int) :
    itemWF (claimFlip i a t) = true := by
  simp [itemWF, claimFlip]

theorem itemWF_failRevert (i : Instruction) (err : String) :
    itemWF (failRevert i err) = true := rfl

theorem mem_removeFirst (l : List Instruction) (v x : Instruction)
    (h : x ∈ removeFirst l v) : x ∈ l := by
  induction l with
  | nil => simp [removeFirst] at h
  | cons y ys ih =>
    by_cases hy : y = v
    · simp only [removeFirst, if_pos hy] at h
      exact List.mem_cons_of_mem y h
    · simp only [removeFirst, if_neg hy] at h
      rcases List.mem_cons.mp h with h | h
      · exact h ▸ List.mem_cons_self y ys
      · exact List.mem_cons_of_mem y (ih h)

theorem mem_foldl_removeFirst (vs : List Instruction) :
    ∀ (l : List Instruction) (x : Instruction),
      x ∈ vs.foldl removeFirst l → x ∈ l := by
  induction vs with
  | nil => intro l x h; simpa using h
  | cons v vs ih =>
    intro l x h
    exact mem_removeFirst l v x (ih (removeFirst l v) x h)

theorem WF_iff (s : QueueState) :
    WF s = true ↔ ∀ i ∈ s.instructions, itemWF i = true := by
  simp [WF, List.all_eq_true]

theorem WF_trim_instructions (s : QueueState) (h : WF s = true) :
    WF (trim_instructions s) = true := by
  unfold trim_instructions
  split
  · rw [WF_iff]
    intro i hi
    exact (WF_iff s).mp h i (mem_foldl_removeFirst _ _ i hi)
  · exact h

theorem WF_addLoop (now : Int) (p : QueueState × Nat) (cmd : String)
    (h : WF p.1 = true) : WF (addLoop now p cmd).1 = true := by
  unfold addLoop
  split
  · rw [WF_iff]
    intro i hi
    simp only [List.mem_append, List.mem_singleton] at hi
    rcases hi with hi | hi
    · exact (WF_iff p.1).mp h i hi
    · rw [hi]; exact itemWF_freshItem _ _ _
  · exact h

theorem WF_foldl_addLoop (now : Int) (cmds : List String) :
    ∀ p : QueueState × Nat, WF p.1 = true →
      WF (cmds.foldl (addLoop now) p).1 = true := by
  induction cmds with
  | nil => intro p h; exact h
  | cons c cs ih =>
    intro p h
    exact ih (addLoop now p c) (WF_addLoop now p c h)

theorem WF_add_instructions (s : QueueState) (cmds : List String) (t : Int)
    (h : WF s = true) : WF (add_instructions s cmds t).1 = true :=
  WF_trim_instructions _ (WF_foldl_addLoop t cmds (s, 0) h)

theorem WF_add_instruction (s : QueueState) (cmd : String) (t : Int)
    (h : WF s = true) : WF (add_instruction s cmd t).1 = true := by
  unfold add_instruction
  split
  · rw [WF_iff]
    intro i hi
    simp only [List.mem_append, List.mem_singleton] at hi
    rcases hi with hi | hi
    · exact (WF_iff s).mp h i hi
    · rw [hi]; exact itemWF_freshItem _ _ _
  · exact h

theorem WF_claimAux (a : String) (t : Int) (l : List Instruction) :
    ∀ l' c, claimAux a t l = some (l', c) →
      (∀ i ∈ l, itemWF i = true) → ∀ i ∈ l', itemWF i = true := by
  induction l with
  | nil => intro l' c h; simp [claimAux] at h
  | cons x xs ih =>
    intro l' c h hl i hi
    by_cases hx : isPending x
    · simp only [claimAux, if_pos hx, Option.some.injEq, Prod.mk.injEq] at h
      rw [← h.1] at hi
      rcases List.mem_cons.mp hi with hi | hi
      · rw [hi]; exact itemWF_claimFlip x a t
      · exact hl i (List.mem_cons_of_mem x hi)
    · simp only [claimAux, hx, Bool.false_eq_true, if_false] at h
      rcases hrec : claimAux a t xs with _ | ⟨rest', c'⟩
      · rw [hrec] at h; simp at h
      · rw [hrec] at h
        simp only [Option.some.injEq, Prod.mk.injEq] at h
        rw [← h.1] at hi
        rcases List.mem_cons.mp hi with hi | hi
        · rw [hi]; exact hl x (List.mem_cons_self x xs)
        · exact ih rest' c' hrec
            (fun j hj => hl j (List.mem_cons_of_mem x hj)) i hi

theorem WF_claim_next (s : QueueState) (a : String) (t : Int)
    (h : WF s = true) : WF (claim_next s a t).1 = true := by
  unfold claim_next
  rcases hc : claimAux a t s.instructions with _ | ⟨l, c⟩
  · exact h
  · rw [WF_iff]
    intro i hi
    exact WF_claimAux a t s.instructions l c hc ((WF_iff s).mp h) i hi

theorem trim_executed_history_instructions (s : QueueState) :
    (trim_executed_history s).instructions = s.instructions := by
  unfold trim_executed_history
  split <;> rfl

theorem WF_trim_executed_history (s : QueueState) :
    WF (trim_executed_history s) = WF s := by
  unfold WF
  rw [trim_executed_history_instructions]

theorem WF_complete_instruction (s : QueueState) (iid : Nat)
    (a res : String) (t : Int) (h : WF s = true) :
    WF (complete_instruction s iid a res t).1 = true := by
  unfold complete_instruction
  rcases hc : completeAux iid a res t s.instructions with _ | ⟨l, c⟩
  · exact h
  · obtain ⟨l1, i, l2, hdec, _, _, _, hl, _⟩ :=
      completeAux_eq_some iid a res t s.instructions l c hc
    have hwf' : ∀ j ∈ l, itemWF j = true := by
      intro j hj
      rw [hl] at hj
      refine (WF_iff s).mp h j ?_
      rw [hdec]
      rcases List.mem_append.mp hj with hj | hj
      · exact List.mem_append.mpr (Or.inl hj)
      · exact List.mem_append.mpr (Or.inr (List.mem_cons_of_mem i hj))
    show WF (trim_executed_history
      { s with
        instructions := l
        executed_instructions := s.executed_instructions ++ [c] }) = true
    rw [WF_trim_executed_history, WF_iff]
    intro j hj
    exact hwf' j hj

theorem WF_fail_instruction (s : QueueState) (iid : Nat) (a err : String)
    (h : WF s = true) : WF (fail_instruction s iid a err).1 = true := by
  unfold fail_instruction
  rcases hc : failAux iid a err s.instructions with _ | l
  · exact h
  · obtain ⟨l1, i, l2, hdec, _, _, _, hl⟩ :=
      failAux_eq_some iid a err s.instructions l hc
    rw [WF_iff]
    intro j hj
    simp only at hj
    rw [hl] at hj
    rcases List.mem_append.mp hj with hj | hj
    · exact (WF_iff s).mp h j (by rw [hdec]; exact List.mem_append.mpr (Or.inl hj))
    · rcases List.mem_cons.mp hj with hj | hj
      · rw [hj]; exact itemWF_failRevert i err
      · refine (WF_iff s).mp h j ?_
        rw [hdec]
        exact List.mem_append.mpr (Or.inr (List.mem_cons_of_mem i hj))

theorem WF_clear_queue (s : QueueState) (h : WF s = true) :
    WF (clear_queue s) = true := by
  rw [WF_iff]
  intro i hi
  exact (WF_iff s).mp h i (List.mem_of_mem_filter hi)

theorem WF_remove_instruction (s : QueueState) (iid : Nat)
    (h : WF s = true) : WF (remove_instruction s iid).1 = true := by
  unfold remove_instruction
  split
  · exact h
  · rw [WF_iff]
    intro i hi
    exact (WF_iff s).mp h i ((List.eraseP_sublist _).mem hi)

theorem WF_editAux (iid : Nat) (c : String) (l : List Instruction) :
    ∀ l', editAux iid c l = some l' →
      (∀ i ∈ l, itemWF i = true) → ∀ i ∈ l', itemWF i = true := by
  induction l with
  | nil => intro l' h; simp [editAux] at h
  | cons x xs ih =>
    intro l' h hl i hi
    by_cases hx : x.id = iid ∧ x.status = "pending"
    · simp only [editAux, if_pos hx, Option.some.injEq] at h
      rw [← h] at hi
      rcases List.mem_cons.mp hi with hi | hi
      · rw [hi]
        have := hl x (List.mem_cons_self x xs)
        simpa [itemWF] using this
      · exact hl i (List.mem_cons_of_mem x hi)
    · simp only [editAux, if_neg hx] at h
      rcases hrec : editAux iid c xs with _ | rest'
      · rw [hrec] at h; simp at h
      · rw [hrec] at h
        simp only [Option.some.injEq] at h
        rw [← h] at hi
        rcases List.mem_cons.mp hi with hi | hi
        · rw [hi]; exact hl x (List.mem_cons_self x xs)
        · exact ih rest' hrec (fun j hj => hl j (List.mem_cons_of_mem x hj)) i hi

theorem WF_edit_instruction (s : QueueState) (iid : Nat) (c : String)
    (h : WF s = true) : WF (edit_instruction s iid c).1 = true := by
  unfold edit_instruction
  rcases hc : editAux iid c s.instructions with _ | l
  · exact h
  · rw [WF_iff]
    intro i hi
    exact WF_editAux iid c s.instructions l hc ((WF_iff s).mp h) i hi

/-- C10: every queue operation preserves the implicit invariant that an
active item is either pending and unclaimed or executing and claimed; in a
well-formed queue a `claimed_by` match therefore already implies the item
is executing, which makes the id-and-claimant check in
`complete_instruction` equivalent to the specified "Executing and claimed
by workerId" precondition. -/
theorem queue_invariant_preserved (s : QueueState) (hwf : WF s = true)
    (cmds : List String) (cmd : String) (a : String) (iid : Nat)
    (res err ncmd : String) (t : Int) :
    WF (add_instructions s cmds t).1 = true ∧
    WF (add_instruction s cmd t).1 = true ∧
    WF (claim_next s a t).1 = true ∧
    WF (complete_instruction s iid a res t).1 = true ∧
    WF (fail_instruction s iid a err).1 = true ∧
    WF (clear_queue s) = true ∧
    WF (remove_instruction s iid).1 = true ∧
    WF (edit_instruction s iid ncmd).1 = true ∧
    (∀ i ∈ s.instructions, ∀ w, i.claimed_by = some w →
      i.status = "executing") :=
  ⟨WF_add_instructions s cmds t hwf,
   WF_add_instruction s cmd t hwf,
   WF_claim_next s a t hwf,
   WF_complete_instruction s iid a res t hwf,
   WF_fail_instruction s iid a err hwf,
   WF_clear_queue s hwf,
   WF_remove_instruction s iid hwf,
   WF_edit_instruction s iid ncmd hwf,
   fun i hi w hc => WF_claimed_executing s hwf i hi w hc⟩

/-- C10 witness: the invariant theorem instantiated on a concrete
well-formed queue with one executing and one pending item. -/
theorem queue_invariant_preserved_witness :
    WF sampleExecQueue = true ∧
    WF (claim_next sampleExecQueue "w2" 1).1 = true := by
  refine ⟨by decide, ?_⟩
  exact (queue_invariant_preserved sampleExecQueue (by decide) ["c"] "c"
    "w2" 1 "r" "e" "c" 1).2.2.1

end SharedQueue

namespace SharedQueue

theorem isExecuting_of_isPending (v : Instruction)
    (h : isPending v = true) : isExecuting v = false := by
  simp only [isPending, beq_iff_eq] at h
  simp [isExecuting, h]

theorem filter_pending_removeFirst (l : List Instruction) (v : Instruction)
    (hv : isPending v = true) :
    (removeFirst l v).filter isPending = removeFirst (l.filter isPending) v := by
  induction l with
  | nil => rfl
  | cons x xs ih =>
    by_cases hx : x = v
    · subst hx
      rw [removeFirst, if_pos rfl, List.filter_cons_of_pos hv, removeFirst,
        if_pos rfl]
    · rw [removeFirst, if_neg hx]
      by_cases hp : isPending x
      · rw [List.filter_cons_of_pos hp, List.filter_cons_of_pos hp,
          removeFirst, if_neg hx, ih]
      · have hp' : isPending x = false := by simpa using hp
        rw [List.filter_cons_of_neg (by simp [hp']),
          List.filter_cons_of_neg (by simp [hp']), ih]

theorem filter_exec_removeFirst (l : List Instruction) (v : Instruction)
    (hv : isExecuting v = false) :
    (removeFirst l v).filter isExecuting = l.filter isExecuting := by
  induction l with
  | nil => rfl
  | cons x xs ih =>
    by_cases hx : x = v
    · subst hx
      rw [removeFirst, if_pos rfl, List.filter_cons_of_neg (by simp [hv])]
    · rw [removeFirst, if_neg hx]
      by_cases hp : isExecuting x
      · rw [List.filter_cons_of_pos hp, List.filter_cons_of_pos hp, ih]
      · have hp' : isExecuting x = false := by simpa using hp
        rw [List.filter_cons_of_neg (by simp [hp']),
          List.filter_cons_of_neg (by simp [hp']), ih]

theorem filter_pending_foldl (vs : List Instruction)
    (hvs : ∀ v ∈ vs, isPending v = true) :
    ∀ l : List Instruction,
      (vs.foldl removeFirst l).filter isPending =
        vs.foldl removeFirst (l.filter isPending) := by
  induction vs with
  | nil => intro l; rfl
  | cons v vs ih =>
    intro l
    have hv := hvs v (by simp)
    rw [List.foldl_cons, List.foldl_cons,
      ih (fun w hw => hvs w (by simp [hw])) (removeFirst l v),
      filter_pending_removeFirst l v hv]

theorem filter_exec_foldl (vs : List Instruction)
    (hvs : ∀ v ∈ vs, isExecuting v = false) :
    ∀ l : List Instruction,
      (vs.foldl removeFirst l).filter isExecuting = l.filter isExecuting := by
  induction vs with
  | nil => intro l; rfl
  | cons v vs ih =>
    intro l
    rw [List.foldl_cons, ih (fun w hw => hvs w (by simp [hw])),
      filter_exec_removeFirst l v (hvs v (by simp))]

theorem foldl_removeFirst_take (k : Nat) :
    ∀ m : List Instruction, (m.take k).foldl removeFirst m = m.drop k := by
  induction k with
  | zero => intro m; rfl
  | succ k ih =>
    intro m
    cases m with
    | nil => rfl
    | cons x xs =>
      rw [List.take_succ_cons, List.foldl_cons, removeFirst, if_pos rfl]
      have hstep : (xs.take k).foldl removeFirst xs = xs.drop k := ih xs
      calc (xs.take k).foldl removeFirst xs = xs.drop k := hstep
        _ = (x :: xs).drop (k + 1) := rfl

theorem trim_pending (s : QueueState)
    (h : (s.instructions.filter isPending).length > s.max_instructions) :
    (trim_instructions s).instructions.filter isPending =
      (s.instructions.filter isPending).drop
        ((s.instructions.filter isPending).length - s.max_instructions) := by
  unfold trim_instructions
  rw [if_pos h]
  have hvs : ∀ v ∈ (s.instructions.filter isPending).take
      ((s.instructions.filter isPending).length - s.max_instructions),
      isPending v = true :=
    fun v hv => List.of_mem_filter (List.mem_of_mem_take hv)
  rw [filter_pending_foldl _ hvs s.instructions]
  exact foldl_removeFirst_take _ (s.instructions.filter isPending)

theorem trim_pending_le (s : QueueState) :
    ((trim_instructions s).instructions.filter isPending).length ≤
      s.max_instructions := by
  by_cases h : (s.instructions.filter isPending).length > s.max_instructions
  · rw [trim_pending s h, List.length_drop]
    omega
  · have heq : trim_instructions s = s := by
      unfold trim_instructions
      rw [if_neg h]
    rw [heq]
    omega

theorem trim_exec (s : QueueState) :
    (trim_instructions s).instructions.filter isExecuting =
      s.instructions.filter isExecuting := by
  unfold trim_instructions
  split
  · refine filter_exec_foldl _ ?_ s.instructions
    intro v hv
    exact isExecuting_of_isPending v
      (List.of_mem_filter (List.mem_of_mem_take hv))
  · rfl

theorem trim_max_instructions (s : QueueState) :
    (trim_instructions s).max_instructions = s.max_instructions := by
  unfold trim_instructions
  split <;> rfl

theorem addLoop_exec (now : Int) (p : QueueState × Nat) (cmd : String) :
    (addLoop now p cmd).1.instructions.filter isExecuting =
      p.1.instructions.filter isExecuting ∧
    (addLoop now p cmd).1.max_instructions = p.1.max_instructions := by
  unfold addLoop
  split
  · constructor
    · rw [List.filter_append]
      have : isExecuting (freshItem (p.1.instruction_counter + 1) cmd now) =
          false := rfl
      simp [this]
    · rfl
  · exact ⟨rfl, rfl⟩

theorem foldl_addLoop_exec (now : Int) (cmds : List String) :
    ∀ p : QueueState × Nat,
      (cmds.foldl (addLoop now) p).1.instructions.filter isExecuting =
        p.1.instructions.filter isExecuting ∧
      (cmds.foldl (addLoop now) p).1.max_instructions =
        p.1.max_instructions := by
  induction cmds with
  | nil => intro p; exact ⟨rfl, rfl⟩
  | cons c cs ih =>
    intro p
    have h1 := addLoop_exec now p c
    have h2 := ih (addLoop now p c)
    rw [List.foldl_cons]
    exact ⟨h2.1.trans h1.1, h2.2.trans h1.2⟩

/-- C5 (amended): after `add_instructions` the pending count never exceeds
the configured ceiling (trimming evicts oldest pending items only), the
executing sublist is untouched by `add_instructions` and by trimming, and
`clear_queue` keeps exactly the executing items.  (The single-item
`add_instruction` performs no trimming — see the counterexample.) -/
theorem add_many_bounded (s : QueueState) (cmds : List String) (t : Int) :
    pendingCount (add_instructions s cmds t).1 ≤ s.max_instructions ∧
    (add_instructions s cmds t).1.instructions.filter isExecuting =
      s.instructions.filter isExecuting ∧
    (clear_queue s).instructions = s.instructions.filter isExecuting := by
  refine ⟨?_, ?_, rfl⟩
  · unfold add_instructions pendingCount pendingList
    have hle := trim_pending_le (cmds.foldl (addLoop t) (s, 0)).1
    have hmax := (foldl_addLoop_exec t cmds (s, 0)).2
    rw [hmax] at hle
    exact hle
  · unfold add_instructions
    rw [trim_exec]
    exact (foldl_addLoop_exec t cmds (s, 0)).1

/-- C5 counterexample: the single-item `add_instruction` does not trim, so
after filling the queue to its ceiling of 50 pending items via
`add_instructions`, one further `add_instruction` leaves 51 pending
items — more than the configured ceiling. -/
theorem add_single_exceeds_ceiling :
    pendingCount (add_instruction
      (add_instructions initQueue (List.replicate 51 "cmd") 0).1 "cmd" 0).1
      = 51 ∧
    (add_instruction
      (add_instructions initQueue (List.replicate 51 "cmd") 0).1 "cmd" 0).1.max_instructions
      = 50 := by
  constructor <;> decide

end SharedQueue

namespace Collab

/-- The ten `MessageType` enum members of `collaboration.py`. -/
inductive MessageType where
  | discovery
  | finding
  | request_help
  | offer_help
  | task_assignment
  | task_completion
  | status_update
  | knowledge_share
  | alert
  | coordination
deriving DecidableEq, Repr

/-- `list(MessageType)` in declaration order — the subscription list every
agent receives at registration. -/
def allMessageTypes : List MessageType :=
  [.discovery, .finding, .request_help, .offer_help, .task_assignment,
   .task_completion, .status_update, .knowledge_share, .alert, .coordination]

/-- The `Priority` enum members. -/
inductive Priority where
  | low
  | normal
  | high
  | critical
deriving DecidableEq, Repr

/-- An `AgentMessage`.  The `content` dictionary payload is abstracted to
a string; timestamps are abstract integers. -/
structure AgentMessage where
  id : String
  from_agent : String
  to_agent : Option String
  message_type : MessageType
  content : String
  priority : Priority
  timestamp : Int
  requires_ack : Bool
  ack_received : Bool
deriving DecidableEq, Repr

/-- One entry of the shared-discovery ledger (`_shared_discoveries`
values), with the `data` payload abstracted to a string. -/
structure Discovery where
  agent_id : String
  dtype : String
  key : String
  data : String
  timestamp : Int
deriving DecidableEq, Repr

/-- State of `InterAgentCommunication`.  Python dicts are modelled as
insertion-ordered association lists and the `_completed_tasks` set as a
duplicate-free list (CPython set iteration order is unspecified; this
model fixes insertion order, which only matters for which entries the
capacity trim discards).  The capability registry is tracked by its key
set; message handlers are external callbacks and are omitted. -/
structure CommState where
  message_queue : List (String × List AgentMessage)
  subscriptions : List (String × List MessageType)
  registered_agents : List String
  message_counter : Nat
  shared_discoveries : List (String × Discovery)
  completed_tasks : List String
  in_progress_tasks : List (String × String)
  max_messages_per_agent : Nat := 20
  max_discoveries : Nat := 100
  max_completed_tasks : Nat := 50
deriving Repr

/-- The empty bus produced by `InterAgentCommunication.__init__`. -/
def initComm : CommState :=
  { message_queue := [], subscriptions := [], registered_agents := []
    message_counter := 0, shared_discoveries := [], completed_tasks := []
    in_progress_tasks := [] }

/-- Dictionary lookup on an association list (first matching key). -/
def alookup {β : Type} : List (String × β) → String → Option β
  | [], _ => none
  | (k, v) :: rest, key => if k = key then some v else alookup rest key

/-- Dictionary `key in d` test. -/
def acontains {β : Type} (l : List (String × β)) (key : String) : Bool :=
  (alookup l key).isSome

/-- In-place update of the value stored under an existing key. -/
def amodify {β : Type} : List (String × β) → String → (β → β) → List (String × β)
  | [], _, _ => []
  | (k, v) :: rest, key, f =>
    if k = key then (k, f v) :: rest else (k, v) :: amodify rest key f

/-- Dictionary `del d[key]` (no-op when the key is absent). -/
def aerase {β : Type} : List (String × β) → String → List (String × β)
  | [], _ => []
  | (k, v) :: rest, key => if k = key then rest else (k, v) :: aerase rest key

/-- `InterAgentCommunication._trim_queue`: drop the oldest messages beyond
the per-agent mailbox bound. -/
def trimQ (maxm : Nat) (q : List AgentMessage) : List AgentMessage :=
  if q.length > maxm then q.drop (q.length - maxm) else q

/-- `InterAgentCommunication.register_agent` (capability value abstracted
to presence of the agent id). -/
def register_agent (s : CommState) (agent_id : String) : CommState :=
  { s with
    registered_agents :=
      if agent_id ∈ s.registered_agents then s.registered_agents
      else s.registered_agents ++ [agent_id]
    message_queue :=
      if acontains s.message_queue agent_id then s.message_queue
      else s.message_queue ++ [(agent_id, [])]
    subscriptions :=
      if acontains s.subscriptions agent_id then s.subscriptions
      else s.subscriptions ++ [(agent_id, allMessageTypes)] }

/-- The message as delivered: `send_message` first overwrites `id` with a
fresh `msg-<counter>` identifier. -/
def deliveredMsg (s : CommState) (msg : AgentMessage) : AgentMessage :=
  { msg with id := "msg-" ++ toString (s.message_counter + 1) }

/-- Direct branch of `send_message`: append to the recipient's mailbox
(and trim) when the recipient has a mailbox; no subscription check is
performed on this path. -/
def directSend (s : CommState) (m : AgentMessage) (t : String) :
    Bool × CommState :=
  if acontains s.message_queue t then
    (true, { s with
      message_counter := s.message_counter + 1
      message_queue := amodify s.message_queue t
        (fun q => trimQ s.max_messages_per_agent (q ++ [m])) })
  else
    (false, { s with message_counter := s.message_counter + 1 })

/-- Broadcast branch of `send_message`: deliver to every other mailbox
whose owner is subscribed to the message's type. -/
def broadcastSend (s : CommState) (m : AgentMessage) : Bool × CommState :=
  (true, { s with
    message_counter := s.message_counter + 1
    message_queue := s.message_queue.map (fun p =>
      (p.1,
        if p.1 ≠ m.from_agent ∧
            m.message_type ∈ (alookup s.subscriptions p.1).getD [] then
          trimQ s.max_messages_per_agent (p.2 ++ [m])
        else p.2)) })

/-- `InterAgentCommunication.send_message`.  Python's `if message.to_agent:`
is truthiness: both `None` and the empty string select the broadcast
branch.  Push-handler callbacks are external and omitted. -/
def send_message (s : CommState) (msg : AgentMessage) : Bool × CommState :=
  match msg.to_agent with
  | some t => if t ≠ "" then directSend s (deliveredMsg s msg) t
              else broadcastSend s (deliveredMsg s msg)
  | none => broadcastSend s (deliveredMsg s msg)

/-- `_trim_completed_tasks`: Python enumerates `list(self._completed_tasks)`
in UNSPECIFIED set-iteration order and discards the first `excess` entries
of that enumeration.  The enumeration `ord` is therefore an explicit
parameter: the trim removes every fingerprint among the first `excess`
elements of `ord` (in the program, `ord` is some permutation of the set;
any choice of `ord` here covers every such order). -/
def trimCT (s : CommState) (ord : List String) (ct : List String) :
    List String :=
  if ct.length > s.max_completed_tasks then
    ct.filter (fun x => !(ord.take (ct.length - s.max_completed_tasks)).contains x)
  else ct

/-- `_trim_discoveries`: discard the oldest ledger entries beyond the
bound. -/
def trimD (s : CommState) (d : List (String × Discovery)) :
    List (String × Discovery) :=
  if d.length > s.max_discoveries then d.drop (d.length - s.max_discoveries)
  else d

/-- The Coordination broadcast announcing a task claim. -/
def coordinationMessage (agent_id fp : String) (t : Int) : AgentMessage :=
  { id := "", from_agent := agent_id, to_agent := none,
    message_type := .coordination, content := "task_claimed:" ++ fp,
    priority := .normal, timestamp := t, requires_ack := false,
    ack_received := false }

/-- The TaskCompletion broadcast announcing a finished task. -/
def completionMessage (agent_id fp : String) (t : Int) : AgentMessage :=
  { id := "", from_agent := agent_id, to_agent := none,
    message_type := .task_completion, content := "task:" ++ fp,
    priority := .normal, timestamp := t, requires_ack := false,
    ack_received := false }

/-- The Discovery broadcast sent by `share_discovery`. -/
def discoveryMessage (agent_id dtype key data : String) (t : Int) :
    AgentMessage :=
  { id := "", from_agent := agent_id, to_agent := none,
    message_type := .discovery,
    content := dtype ++ ":" ++ key ++ ":" ++ data, priority := .normal,
    timestamp := t, requires_ack := false, ack_received := false }

/-- `InterAgentCommunication.claim_task`. -/
def claim_task (s : CommState) (agent_id fp : String) (t : Int) :
    Bool × CommState :=
  if fp ∈ s.completed_tasks then (false, s)
  else if acontains s.in_progress_tasks fp then (false, s)
  else
    let s1 := { s with
      in_progress_tasks := s.in_progress_tasks ++ [(fp, agent_id)] }
    (true, (send_message s1 (coordinationMessage agent_id fp t)).2)

/-- `InterAgentCommunication.complete_task`.  `ord` is the set-iteration
order the capacity trim would observe (see `trimCT`). -/
def complete_task (s : CommState) (agent_id fp : String) (t : Int)
    (ord : List String) : CommState :=
  let s1 := { s with
    in_progress_tasks := aerase s.in_progress_tasks fp
    completed_tasks := trimCT s ord
      (if fp ∈ s.completed_tasks then s.completed_tasks
       else s.completed_tasks ++ [fp]) }
  (send_message s1 (completionMessage agent_id fp t)).2

/-- `InterAgentCommunication.is_task_available`. -/
def is_task_available (s : CommState) (fp : String) : Bool :=
  !(s.completed_tasks.contains fp) && !(acontains s.in_progress_tasks fp)

/-- `InterAgentCommunication.share_discovery`. -/
def share_discovery (s : CommState) (agent_id dtype key data : String)
    (t : Int) (broadcast : Bool) : Bool × CommState :=
  if acontains s.shared_discoveries (dtype ++ ":" ++ key) then (false, s)
  else
    let s1 := { s with
      shared_discoveries := trimD s (s.shared_discoveries ++
        [(dtype ++ ":" ++ key,
          { agent_id := agent_id, dtype := dtype, key := key, data := data,
            timestamp := t })]) }
    if broadcast then
      (true, (send_message s1 (discoveryMessage agent_id dtype key data t)).2)
    else (true, s1)

/-- A task-claim / task-completion operation, for invariant preservation
over arbitrary operation sequences; a completion records the set-iteration
order its trim would observe. -/
inductive TaskOp where
  | claim (agent fp : String)
  | complete (agent fp : String) (ord : List String)
deriving Repr

/-- Apply one task operation. -/
def applyTaskOp (t : Int) (s : CommState) : TaskOp → CommState
  | .claim a fp => (claim_task s a fp t).2
  | .complete a fp ord => complete_task s a fp t ord

/-- Run a sequence of task operations. -/
def runTaskOps (t : Int) : CommState → List TaskOp → CommState
  | s, [] => s
  | s, op :: ops => runTaskOps t (applyTaskOp t s op) ops

/-- Task-ledger invariant: in-progress fingerprints are distinct and no
in-progress fingerprint is also completed. -/
def TaskInv (s : CommState) : Prop :=
  (s.in_progress_tasks.map Prod.fst).Nodup ∧
  ∀ p ∈ s.in_progress_tasks, p.1 ∉ s.completed_tasks

instance : DecidablePred TaskInv := fun s => by
  unfold TaskInv
  infer_instance

end Collab

namespace Collab

theorem alookup_eq_none_iff {β : Type} (l : List (String × β)) (k : String) :
    alookup l k = none ↔ ∀ p ∈ l, p.1 ≠ k := by
  induction l with
  | nil => simp [alookup]
  | cons x xs ih =>
    rcases x with ⟨xk, xv⟩
    by_cases hk : xk = k
    · subst hk
      simp [alookup]
    · simp only [alookup, if_neg hk, List.mem_cons, ih]
      constructor
      · rintro h p (rfl | hp)
        · exact hk
        · exact h p hp
      · intro h p hp
        exact h p (Or.inr hp)

theorem acontains_false_iff {β : Type} (l : List (String × β)) (k : String) :
    acontains l k = false ↔ ∀ p ∈ l, p.1 ≠ k := by
  rw [← alookup_eq_none_iff]
  unfold acontains
  rcases alookup l k with _ | v <;> simp

theorem alookup_mem {β : Type} (l : List (String × β)) (k : String)
    (v : β) (h : alookup l k = some v) : (k, v) ∈ l := by
  induction l with
  | nil => simp [alookup] at h
  | cons x xs ih =>
    rcases x with ⟨xk, xv⟩
    by_cases hk : xk = k
    · subst hk
      have hl : alookup ((xk, xv) :: xs) xk = some xv := by simp [alookup]
      rw [hl] at h
      cases h
      exact List.mem_cons_self _ _
    · simp only [alookup, if_neg hk] at h
      exact List.mem_cons_of_mem _ (ih h)

theorem alookup_append_last_fresh {β : Type} (l : List (String × β))
    (k : String) (v : β) (h : ∀ p ∈ l, p.1 ≠ k) :
    alookup (l ++ [(k, v)]) k = some v := by
  induction l with
  | nil => simp [alookup]
  | cons x xs ih =>
    have hx : x.1 ≠ k := h x (by simp)
    rcases x with ⟨xk, xv⟩
    simp only [List.cons_append, alookup, if_neg hx]
    exact ih (fun p hp => h p (by simp [hp]))

theorem acontains_append_last {β : Type} (l : List (String × β))
    (k : String) (v : β) : acontains (l ++ [(k, v)]) k = true := by
  unfold acontains
  induction l with
  | nil => simp [alookup]
  | cons x xs ih =>
    rcases x with ⟨xk, xv⟩
    by_cases hk : xk = k
    · simp [alookup, hk]
    · simpa [alookup, hk] using ih

theorem aerase_sublist {β : Type} (l : List (String × β)) (k : String) :
    (aerase l k).Sublist l := by
  induction l with
  | nil => simp [aerase]
  | cons x xs ih =>
    rcases x with ⟨xk, xv⟩
    by_cases hk : xk = k
    · simp only [aerase, if_pos hk]
      exact (List.sublist_cons_self _ _)
    · simp only [aerase, if_neg hk]
      exact ih.cons₂ _

theorem mem_aerase {β : Type} (l : List (String × β)) (k : String)
    (hnd : (l.map Prod.fst).Nodup) (p : String × β) (hp : p ∈ aerase l k) :
    p ∈ l ∧ p.1 ≠ k := by
  induction l with
  | nil => simp [aerase] at hp
  | cons x xs ih =>
    rcases x with ⟨xk, xv⟩
    simp only [List.map_cons, List.nodup_cons] at hnd
    by_cases hk : xk = k
    · subst hk
      simp only [aerase, if_pos rfl] at hp
      refine ⟨List.mem_cons_of_mem _ hp, ?_⟩
      intro hpk
      exact hnd.1 (hpk ▸ List.mem_map_of_mem Prod.fst hp)
    · simp only [aerase, if_neg hk] at hp
      rcases List.mem_cons.mp hp with hp | hp
      · subst hp
        exact ⟨List.mem_cons_self _ _, hk⟩
      · obtain ⟨h1, h2⟩ := ih hnd.2 hp
        exact ⟨List.mem_cons_of_mem _ h1, h2⟩

theorem directSend_tasks (s : CommState) (m : AgentMessage) (t : String) :
    (directSend s m t).2.in_progress_tasks = s.in_progress_tasks ∧
    (directSend s m t).2.completed_tasks = s.completed_tasks ∧
    (directSend s m t).2.shared_discoveries = s.shared_discoveries ∧
    (directSend s m t).2.max_completed_tasks = s.max_completed_tasks ∧
    (directSend s m t).2.max_discoveries = s.max_discoveries := by
  unfold directSend
  split <;> exact ⟨rfl, rfl, rfl, rfl, rfl⟩

theorem broadcastSend_tasks (s : CommState) (m : AgentMessage) :
    (broadcastSend s m).2.in_progress_tasks = s.in_progress_tasks ∧
    (broadcastSend s m).2.completed_tasks = s.completed_tasks ∧
    (broadcastSend s m).2.shared_discoveries = s.shared_discoveries ∧
    (broadcastSend s m).2.max_completed_tasks = s.max_completed_tasks ∧
    (broadcastSend s m).2.max_discoveries = s.max_discoveries :=
  ⟨rfl, rfl, rfl, rfl, rfl⟩

theorem send_message_tasks (s : CommState) (msg : AgentMessage) :
    (send_message s msg).2.in_progress_tasks = s.in_progress_tasks ∧
    (send_message s msg).2.completed_tasks = s.completed_tasks ∧
    (send_message s msg).2.shared_discoveries = s.shared_discoveries ∧
    (send_message s msg).2.max_completed_tasks = s.max_completed_tasks ∧
    (send_message s msg).2.max_discoveries = s.max_discoveries := by
  rcases h : msg.to_agent with _ | t
  · simp only [send_message, h]
    exact broadcastSend_tasks s (deliveredMsg s msg)
  · simp only [send_message, h]
    by_cases ht : t ≠ ""
    · rw [if_pos ht]
      exact directSend_tasks s (deliveredMsg s msg) t
    · rw [if_neg ht]
      exact broadcastSend_tasks s (deliveredMsg s msg)

theorem claim_task_inv (s : CommState) (a fp : String) (t : Int)
    (hinv : TaskInv s) : TaskInv (claim_task s a fp t).2 := by
  unfold claim_task
  by_cases hcomp : fp ∈ s.completed_tasks
  · rw [if_pos hcomp]
    exact hinv
  · rw [if_neg hcomp]
    by_cases hip : acontains s.in_progress_tasks fp = true
    · rw [if_pos hip]
      exact hinv
    · rw [if_neg hip]
      have hip' : acontains s.in_progress_tasks fp = false := by
        simpa using hip
      have hts := send_message_tasks
        { s with in_progress_tasks := s.in_progress_tasks ++ [(fp, a)] }
        (coordinationMessage a fp t)
      constructor
      · rw [hts.1]
        simp only [List.map_append, List.map_cons, List.map_nil]
        rw [List.nodup_append]
        refine ⟨hinv.1, List.nodup_singleton fp, ?_⟩
        intro x hx
        simp only [List.mem_singleton]
        intro hxfp
        subst hxfp
        obtain ⟨p, hp, hpk⟩ := List.mem_map.mp hx
        rw [acontains_false_iff] at hip'
        exact hip' p hp hpk
      · intro p hp
        rw [hts.1] at hp
        rw [hts.2.1]
        rcases List.mem_append.mp hp with hp | hp
        · exact hinv.2 p hp
        · simp only [List.mem_singleton] at hp
          subst hp
          exact hcomp

theorem mem_trimCT (s : CommState) (ord ct : List String) (x : String)
    (hx : x ∈ trimCT s ord ct) : x ∈ ct := by
  unfold trimCT at hx
  split at hx
  · exact List.mem_of_mem_filter hx
  · exact hx

theorem complete_task_inv (s : CommState) (a fp : String) (t : Int)
    (ord : List String) (hinv : TaskInv s) :
    TaskInv (complete_task s a fp t ord) := by
  unfold complete_task
  have hts := send_message_tasks
    { s with
      in_progress_tasks := aerase s.in_progress_tasks fp
      completed_tasks := trimCT s ord
        (if fp ∈ s.completed_tasks then s.completed_tasks
         else s.completed_tasks ++ [fp]) }
    (completionMessage a fp t)
  constructor
  · rw [hts.1]
    exact hinv.1.sublist ((aerase_sublist s.in_progress_tasks fp).map Prod.fst)
  · intro p hp
    rw [hts.1] at hp
    rw [hts.2.1]
    obtain ⟨hmem, hne⟩ := mem_aerase s.in_progress_tasks fp hinv.1 p hp
    intro hcon
    have hcon' := mem_trimCT _ _ _ _ hcon
    split at hcon'
    · exact hinv.2 p hmem hcon'
    · rcases List.mem_append.mp hcon' with h | h
      · exact hinv.2 p hmem h
      · simp only [List.mem_singleton] at h
        exact hne h

theorem runTaskOps_inv (t : Int) (ops : List TaskOp) :
    ∀ s : CommState, TaskInv s → TaskInv (runTaskOps t s ops) := by
  induction ops with
  | nil => intro s h; exact h
  | cons op ops ih =>
    intro s h
    refine ih (applyTaskOp t s op) ?_
    rcases op with ⟨a, fp⟩ | ⟨a, fp, ord⟩
    · exact claim_task_inv s a fp t h
    · exact complete_task_inv s a fp t ord h

end Collab

namespace Collab

theorem claim_task_fresh (s : CommState) (A fp : String) (t : Int)
    (h1 : fp ∉ s.completed_tasks)
    (h2 : acontains s.in_progress_tasks fp = false) :
    (claim_task s A fp t).1 = true ∧
    (claim_task s A fp t).2.in_progress_tasks =
      s.in_progress_tasks ++ [(fp, A)] ∧
    (claim_task s A fp t).2.completed_tasks = s.completed_tasks ∧
    (claim_task s A fp t).2.max_completed_tasks = s.max_completed_tasks := by
  unfold claim_task
  rw [if_neg h1, if_neg (by simp [h2])]
  have hts := send_message_tasks
    { s with in_progress_tasks := s.in_progress_tasks ++ [(fp, A)] }
    (coordinationMessage A fp t)
  exact ⟨rfl, hts.1, hts.2.1, hts.2.2.2.1⟩

theorem claim_task_blocked_completed (s : CommState) (B fp : String)
    (t : Int) (h : fp ∈ s.completed_tasks) :
    (claim_task s B fp t).1 = false := by
  unfold claim_task
  rw [if_pos h]

theorem claim_task_blocked_inprogress (s : CommState) (B fp : String)
    (t : Int) (h : acontains s.in_progress_tasks fp = true) :
    (claim_task s B fp t).1 = false := by
  unfold claim_task
  by_cases hc : fp ∈ s.completed_tasks
  · rw [if_pos hc]
  · rw [if_neg hc, if_pos h]

theorem complete_task_mem (s : CommState) (A fp : String) (t : Int)
    (ord : List String)
    (hcap : s.completed_tasks.length < s.max_completed_tasks)
    (hnc : fp ∉ s.completed_tasks) :
    fp ∈ (complete_task s A fp t ord).completed_tasks := by
  unfold complete_task
  have hts := send_message_tasks
    { s with
      in_progress_tasks := aerase s.in_progress_tasks fp
      completed_tasks := trimCT s ord
        (if fp ∈ s.completed_tasks then s.completed_tasks
         else s.completed_tasks ++ [fp]) }
    (completionMessage A fp t)
  rw [hts.2.1]
  simp only [if_neg hnc]
  unfold trimCT
  rw [if_neg (by
    simp only [List.length_append, List.length_singleton]
    omega)]
  simp

/-- C3 (amended): for every sequence of claim/complete operations — under
every set-iteration order the capacity trims may observe — each
fingerprint stays in at most one of the in-progress map and the completed
set; a fresh fingerprint is claimed exactly once, the second claim
failing while it is in progress; and after completeTask, provided the
completed set was below its capacity bound (so the trim does not fire),
every later claimTask of that fingerprint returns false.  (At capacity
the set trim discards iteration-order-dependent entries and may discard
the fingerprint itself — see the counterexample.) -/
theorem task_dedup (s : CommState) (A B fp : String) (ops : List TaskOp)
    (ord : List String) (t0 t1 t2 t3 t4 : Int) (hinv : TaskInv s)
    (hfc : fp ∉ s.completed_tasks)
    (hfi : acontains s.in_progress_tasks fp = false)
    (hcap : s.completed_tasks.length < s.max_completed_tasks) :
    TaskInv (runTaskOps t0 s ops) ∧
    (claim_task s A fp t1).1 = true ∧
    (claim_task (claim_task s A fp t1).2 B fp t2).1 = false ∧
    (claim_task (complete_task (claim_task s A fp t1).2 A fp t3 ord) B fp
      t4).1 = false := by
  obtain ⟨hc1, hip1, hct1, hmax1⟩ := claim_task_fresh s A fp t1 hfc hfi
  refine ⟨runTaskOps_inv t0 ops s hinv, hc1, ?_, ?_⟩
  · refine claim_task_blocked_inprogress _ B fp t2 ?_
    rw [hip1]
    exact acontains_append_last _ fp A
  · refine claim_task_blocked_completed _ B fp t4 ?_
    refine complete_task_mem _ A fp t3 ord ?_ ?_
    · rw [hmax1, hct1]
      exact hcap
    · rw [hct1]
      exact hfc

/-- C3 witness: the dedup scenario on the empty bus with fingerprint
`fp` and agents `A`, `B`. -/
theorem task_dedup_witness :
    TaskInv initComm ∧
    initComm.completed_tasks.length < initComm.max_completed_tasks ∧
    (claim_task initComm "A" "fp" 1).1 = true ∧
    (claim_task (claim_task initComm "A" "fp" 1).2 "B" "fp" 2).1 = false ∧
    (claim_task (complete_task (claim_task initComm "A" "fp" 1).2 "A" "fp" 3
      []) "B" "fp" 4).1 = false := by
  refine ⟨by decide, by decide, ?_⟩
  have h := task_dedup initComm "A" "B" "fp" [] [] 0 1 2 3 4
    (by decide) (by decide) (by decide) (by decide)
  exact ⟨h.2.1, h.2.2.1, h.2.2.2⟩

/-- Distinct fingerprint names for the C3 counterexample. -/
def fpName (n : Nat) : String := String.mk (List.replicate (n + 1) 'a')

/-- A completed set already holding 50 fingerprints — the value of the
configured `_max_completed_tasks` capacity. -/
def fullCompleted : List String := (List.range 50).map fpName

/-- Bus state whose completed set is at capacity, for the C3
counterexample. -/
def cexTaskState : CommState :=
  { message_queue := [], subscriptions := [], registered_agents := []
    message_counter := 0, shared_discoveries := []
    completed_tasks := fullCompleted, in_progress_tasks := [] }

/-- C3 counterexample: with the completed set at its capacity of 50, a
permitted set-iteration order that enumerates the just-completed
fingerprint first makes the capacity trim evict that very fingerprint,
after which `claim_task` for it succeeds again — refuting the claim's
"after completeTask(A, fp) every later claimTask(B, fp) still returns
false".  (`"fp" :: fullCompleted` is a permutation of the 51-element
completed set being trimmed, hence a possible `list(set)` enumeration in
CPython, whose set-iteration order is unspecified.) -/
theorem task_dedup_capacity_cex :
    (claim_task cexTaskState "A" "fp" 1).1 = true ∧
    (claim_task (complete_task (claim_task cexTaskState "A" "fp" 1).2 "A"
      "fp" 2 ("fp" :: fullCompleted)) "B" "fp" 3).1 = true := by
  constructor <;> decide

end Collab

namespace Collab

theorem alookup_amodify_self {β : Type} (k : String) (f : β → β) :
    ∀ (l : List (String × β)) (v : β), alookup l k = some v →
      alookup (amodify l k f) k = some (f v) := by
  intro l
  induction l with
  | nil => intro v h; simp [alookup] at h
  | cons x xs ih =>
    intro v h
    rcases x with ⟨xk, xv⟩
    by_cases hk : xk = k
    · subst hk
      have hv : xv = v := by
        have : alookup ((xk, xv) :: xs) xk = some xv := by simp [alookup]
        rw [this] at h
        exact Option.some.inj h
      subst hv
      simp [amodify, alookup]
    · simp only [alookup, if_neg hk] at h
      simp only [amodify, if_neg hk, alookup, if_neg hk]
      exact ih v h

theorem alookup_amodify_ne {β : Type} (k aid : String) (f : β → β)
    (hne : aid ≠ k) (l : List (String × β)) :
    alookup (amodify l k f) aid = alookup l aid := by
  induction l with
  | nil => rfl
  | cons x xs ih =>
    rcases x with ⟨xk, xv⟩
    by_cases hk : xk = k
    · have hka : ¬xk = aid := by
        intro hc
        subst hc
        exact hne hk
      simp only [amodify, if_pos hk, alookup, if_neg hka]
    · by_cases hka : xk = aid
      · simp only [amodify, if_neg hk, alookup, if_pos hka]
      · simp only [amodify, if_neg hk, alookup, if_neg hka]
        exact ih

theorem alookup_mapval {β : Type} (g : String → β → β) (l : List (String × β))
    (k : String) :
    alookup (l.map (fun p => (p.1, g p.1 p.2))) k =
      (alookup l k).map (g k) := by
  induction l with
  | nil => rfl
  | cons x xs ih =>
    rcases x with ⟨xk, xv⟩
    by_cases hk : xk = k
    · subst hk
      simp [alookup]
    · simp [alookup, hk, ih]

theorem broadcastSend_lookup (s : CommState) (m : AgentMessage)
    (aid : String) :
    alookup (broadcastSend s m).2.message_queue aid =
      (alookup s.message_queue aid).map (fun q =>
        if aid ≠ m.from_agent ∧
            m.message_type ∈ (alookup s.subscriptions aid).getD [] then
          trimQ s.max_messages_per_agent (q ++ [m])
        else q) :=
  alookup_mapval
    (fun k q =>
      if k ≠ m.from_agent ∧
          m.message_type ∈ (alookup s.subscriptions k).getD [] then
        trimQ s.max_messages_per_agent (q ++ [m])
      else q)
    s.message_queue aid

/-- C4 (amended): a direct message (`to_agent` a non-empty string) is
appended to the recipient's bounded mailbox and `send_message` returns
true exactly when the recipient has a registered mailbox — the
subscription filter is NOT consulted on the direct path; a broadcast
message (`to_agent` absent or empty) returns true and is appended to the
mailbox of every registered agent other than the sender that is
subscribed to the message's type. -/
theorem send_message_routing (s : CommState) (msg : AgentMessage) :
    (∀ r, msg.to_agent = some r → r ≠ "" →
      ((send_message s msg).1 = acontains s.message_queue r) ∧
      (∀ q, alookup s.message_queue r = some q →
        alookup (send_message s msg).2.message_queue r =
          some (trimQ s.max_messages_per_agent (q ++ [deliveredMsg s msg]))) ∧
      (∀ aid, aid ≠ r →
        alookup (send_message s msg).2.message_queue aid =
          alookup s.message_queue aid) ∧
      (acontains s.message_queue r = false →
        (send_message s msg).2 =
          { s with message_counter := s.message_counter + 1 })) ∧
    ((msg.to_agent = none ∨ msg.to_agent = some "") →
      (send_message s msg).1 = true ∧
      (∀ aid, alookup (send_message s msg).2.message_queue aid =
        (alookup s.message_queue aid).map (fun q =>
          if aid ≠ msg.from_agent ∧
              msg.message_type ∈ (alookup s.subscriptions aid).getD [] then
            trimQ s.max_messages_per_agent (q ++ [deliveredMsg s msg])
          else q))) := by
  constructor
  · intro r hr hr'
    simp only [send_message, hr, if_pos hr']
    unfold directSend
    by_cases hc : acontains s.message_queue r = true
    · rw [if_pos hc]
      refine ⟨by rw [hc], ?_, ?_, ?_⟩
      · intro q hq
        exact alookup_amodify_self r _ s.message_queue q hq
      · intro aid hne
        exact alookup_amodify_ne r aid _ hne s.message_queue
      · intro hfalse
        rw [hfalse] at hc
        cases hc
    · rw [if_neg hc]
      have hc' : acontains s.message_queue r = false := by simpa using hc
      refine ⟨by rw [hc'], ?_, ?_, ?_⟩
      · intro q hq
        exfalso
        unfold acontains at hc'
        rw [hq] at hc'
        cases hc'
      · intro aid _
        rfl
      · intro _
        rfl
  · intro hb
    have hgoal : ∀ m, m = deliveredMsg s msg →
        (broadcastSend s m).1 = true ∧
        (∀ aid, alookup (broadcastSend s m).2.message_queue aid =
          (alookup s.message_queue aid).map (fun q =>
            if aid ≠ msg.from_agent ∧
                msg.message_type ∈ (alookup s.subscriptions aid).getD [] then
              trimQ s.max_messages_per_agent (q ++ [deliveredMsg s msg])
            else q)) := by
      rintro m rfl
      exact ⟨rfl, fun aid => broadcastSend_lookup s (deliveredMsg s msg) aid⟩
    rcases hb with hb | hb
    · simp only [send_message, hb]
      exact hgoal _ rfl
    · simp only [send_message, hb, ne_eq, not_true_eq_false, if_false]
      exact hgoal _ rfl

/-- Concrete bus state for the C4 counterexample: agent `b` is registered
(it has a mailbox) but its subscription list is empty. -/
def cexState : CommState :=
  { message_queue := [("b", [])], subscriptions := [("b", [])]
    registered_agents := ["b"], message_counter := 0, shared_discoveries := []
    completed_tasks := [], in_progress_tasks := [] }

/-- Concrete direct Alert message from `a` to `b` for the C4
counterexample. -/
def cexMsg : AgentMessage :=
  { id := "", from_agent := "a", to_agent := some "b", message_type := .alert
    content := "x", priority := .critical, timestamp := 0
    requires_ack := false, ack_received := false }

/-- C4 counterexample: agent `b` is registered but not subscribed to
Alert messages, yet the direct send returns true and appends the message
to `b`'s mailbox — the claim's "only if … subscribed … returns false
otherwise" fails on the direct path. -/
theorem send_message_direct_skips_subscription :
    (send_message cexState cexMsg).1 = true ∧
    (alookup (send_message cexState cexMsg).2.message_queue "b").map
      List.length = some 1 ∧
    cexMsg.message_type ∉ (alookup cexState.subscriptions "b").getD [] := by
  exact ⟨rfl, rfl, by decide⟩

/-- C4 witness: the amended routing theorem instantiated on the concrete
counterexample state: the direct send delivers exactly when the recipient
has a mailbox. -/
theorem send_message_routing_witness :
    cexMsg.to_agent = some "b" ∧
    (send_message cexState cexMsg).1 = acontains cexState.message_queue "b" := by
  refine ⟨rfl, ?_⟩
  exact ((send_message_routing cexState cexMsg).1 "b" rfl (by decide)).1

end Collab

namespace Collab

theorem alookup_trimD_last (s : CommState) (l : List (String × Discovery))
    (k : String) (v : Discovery) (hfresh : ∀ p ∈ l, p.1 ≠ k)
    (hmax : 0 < s.max_discoveries) :
    alookup (trimD s (l ++ [(k, v)])) k = some v := by
  unfold trimD
  split
  · have hj : (l ++ [(k, v)]).length - s.max_discoveries ≤ l.length := by
      simp only [List.length_append, List.length_singleton]
      omega
    rw [List.drop_append_of_le_length hj]
    exact alookup_append_last_fresh _ k v
      (fun p hp => hfresh p (List.mem_of_mem_drop hp))
  · exact alookup_append_last_fresh _ k v hfresh

theorem share_discovery_existing (s : CommState) (a dtype key d : String)
    (t : Int) (b : Bool)
    (h : acontains s.shared_discoveries (dtype ++ ":" ++ key) = true) :
    share_discovery s a dtype key d t b = (false, s) := by
  unfold share_discovery
  rw [if_pos h]

/-- C9: `share_discovery` is first-writer-wins per `"{type}:{key}"`: on a
fresh key the first call returns true and stores the first write's value;
a second call with the same key and different data returns false and
changes nothing, and the ledger still holds the first write's value. -/
theorem share_discovery_write_once (s : CommState)
    (a dtype key d1 d2 : String) (t1 t2 : Int) (b1 b2 : Bool)
    (hfresh : acontains s.shared_discoveries (dtype ++ ":" ++ key) = false)
    (hmax : 0 < s.max_discoveries) (hd : d1 ≠ d2) :
    (share_discovery s a dtype key d1 t1 b1).1 = true ∧
    alookup (share_discovery s a dtype key d1 t1 b1).2.shared_discoveries
      (dtype ++ ":" ++ key) =
      some { agent_id := a, dtype := dtype, key := key, data := d1,
             timestamp := t1 } ∧
    (share_discovery (share_discovery s a dtype key d1 t1 b1).2 a dtype key
      d2 t2 b2).1 = false ∧
    (share_discovery (share_discovery s a dtype key d1 t1 b1).2 a dtype key
      d2 t2 b2).2 = (share_discovery s a dtype key d1 t1 b1).2 := by
  have hfresh' : ∀ p ∈ s.shared_discoveries, p.1 ≠ dtype ++ ":" ++ key :=
    (acontains_false_iff _ _).mp hfresh
  have hfst : (share_discovery s a dtype key d1 t1 b1).2.shared_discoveries =
      trimD s (s.shared_discoveries ++ [(dtype ++ ":" ++ key,
        { agent_id := a, dtype := dtype, key := key, data := d1,
          timestamp := t1 })]) := by
    unfold share_discovery
    rw [if_neg (by simp [hfresh])]
    split
    · exact (send_message_tasks _ _).2.2.1
    · rfl
  have hone : (share_discovery s a dtype key d1 t1 b1).1 = true := by
    unfold share_discovery
    rw [if_neg (by simp [hfresh])]
    split <;> rfl
  have hval : alookup
      (share_discovery s a dtype key d1 t1 b1).2.shared_discoveries
      (dtype ++ ":" ++ key) =
      some { agent_id := a, dtype := dtype, key := key, data := d1,
             timestamp := t1 } := by
    rw [hfst]
    exact alookup_trimD_last s s.shared_discoveries _ _ hfresh' hmax
  have hcont : acontains
      (share_discovery s a dtype key d1 t1 b1).2.shared_discoveries
      (dtype ++ ":" ++ key) = true := by
    unfold acontains
    rw [hval]
    rfl
  refine ⟨hone, hval, ?_, ?_⟩
  · rw [share_discovery_existing _ a dtype key d2 t2 b2 hcont]
  · rw [share_discovery_existing _ a dtype key d2 t2 b2 hcont]

/-- C9 witness: the write-once property on the empty bus, with a concrete
`(port, 80)` discovery written with data `d1` and re-attempted with
`d2`. -/
theorem share_discovery_write_once_witness :
    (share_discovery initComm "A" "port" "80" "d1" 1 false).1 = true ∧
    (share_discovery (share_discovery initComm "A" "port" "80" "d1" 1
      false).2 "A" "port" "80" "d2" 2 false).1 = false ∧
    alookup (share_discovery initComm "A" "port" "80" "d1" 1
      false).2.shared_discoveries "port:80" =
      some { agent_id := "A", dtype := "port", key := "80", data := "d1",
             timestamp := 1 } := by
  have h := share_discovery_write_once initComm "A" "port" "80" "d1" "d2"
    1 2 false false (by decide) (by decide) (by decide)
  exact ⟨h.1, h.2.2.1, h.2.1⟩

end Collab

namespace Throttle

/-- The `ThrottleLevel` enum. -/
inductive ThrottleLevel where
  | NONE
  | LIGHT
  | MODERATE
  | HEAVY
  | PAUSE
deriving DecidableEq, Repr

/-- Numeric values of the enum members. -/
def ThrottleLevel.value : ThrottleLevel → Nat
  | .NONE => 0
  | .LIGHT => 1
  | .MODERATE => 2
  | .HEAVY => 3
  | .PAUSE => 4

/-- `ResourceThresholds` with the dataclass defaults (percentages modelled
as rationals; the code only ever compares them). -/
structure ResourceThresholds where
  cpu_light : ℚ := 60
  cpu_moderate : ℚ := 75
  cpu_heavy : ℚ := 85
  cpu_pause : ℚ := 95
  memory_light : ℚ := 60
  memory_moderate : ℚ := 75
  memory_heavy : ℚ := 85
  memory_pause : ℚ := 92
deriving DecidableEq, Repr

/-- A resource sample: the `cpu_percent` / `memory_percent` entries of the
dict consumed by `calculate_throttle_level` (its `.get(…, 0)` defaults are
the callers' concern; a sample always carries both fields). -/
structure Resources where
  cpu_percent : ℚ
  memory_percent : ℚ
deriving DecidableEq, Repr

/-- The `if max_level.value < X.value: max_level = X` update pattern of
`calculate_throttle_level`. -/
def updIf (cur new : ThrottleLevel) : ThrottleLevel :=
  if cur.value < new.value then new else cur

/-- CPU elif-chain of `calculate_throttle_level` (reason strings without
the interpolated percentages). -/
def cpuPart (th : ResourceThresholds) (cpu : ℚ) :
    ThrottleLevel × List String :=
  if cpu ≥ th.cpu_pause then (.PAUSE, ["CPU critical"])
  else if cpu ≥ th.cpu_heavy then (updIf .NONE .HEAVY, ["CPU high"])
  else if cpu ≥ th.cpu_moderate then (updIf .NONE .MODERATE, ["CPU elevated"])
  else if cpu ≥ th.cpu_light then (updIf .NONE .LIGHT, ["CPU moderate"])
  else (.NONE, [])

/-- Memory elif-chain of `calculate_throttle_level`, continuing from the
CPU chain's accumulator. -/
def memPart (th : ResourceThresholds) (p : ThrottleLevel × List String)
    (memory : ℚ) : ThrottleLevel × List String :=
  if memory ≥ th.memory_pause then (.PAUSE, p.2 ++ ["Memory critical"])
  else if memory ≥ th.memory_heavy then
    (updIf p.1 .HEAVY, p.2 ++ ["Memory high"])
  else if memory ≥ th.memory_moderate then
    (updIf p.1 .MODERATE, p.2 ++ ["Memory elevated"])
  else if memory ≥ th.memory_light then
    (updIf p.1 .LIGHT, p.2 ++ ["Memory moderate"])
  else p

/-- `"; ".join(reasons) if reasons else "Resources normal"`. -/
def joinReasons (rs : List String) : String :=
  if rs.isEmpty then "Resources normal" else String.intercalate "; " rs

/-- `IntelligentThrottler.calculate_throttle_level`. -/
def calculate_throttle_level (th : ResourceThresholds) (r : Resources) :
    ThrottleLevel × String :=
  ((memPart th (cpuPart th r.cpu_percent) r.memory_percent).1,
   joinReasons (memPart th (cpuPart th r.cpu_percent) r.memory_percent).2)

/-- The spec's per-dimension band level under four cutoffs. -/
def bandLevel (pse hvy mdr lgt : ℚ) (x : ℚ) : ThrottleLevel :=
  if x ≥ pse then .PAUSE
  else if x ≥ hvy then .HEAVY
  else if x ≥ mdr then .MODERATE
  else if x ≥ lgt then .LIGHT
  else .NONE

/-- Maximum of two levels in the None < Light < Moderate < Heavy < Pause
order. -/
def levelMax (a b : ThrottleLevel) : ThrottleLevel :=
  if a.value < b.value then b else a

/-- Per-worker `ThrottleState` with its dataclass defaults. -/
structure ThrottleState where
  level : ThrottleLevel := .NONE
  base_delay : ℚ := 1
  current_delay : ℚ := 1
  pause_until : Option ℚ := none
  consecutive_high_usage : Nat := 0
  last_check : ℚ := 0
  reason : String := ""
deriving DecidableEq, Repr

/-- The fixed delay multipliers of `get_delay_for_level`. -/
def multiplier : ThrottleLevel → ℚ
  | .NONE => 1
  | .LIGHT => 3/2
  | .MODERATE => 5/2
  | .HEAVY => 5
  | .PAUSE => 15

/-- `IntelligentThrottler.get_delay_for_level`, with the
`random.uniform(0.8, 1.2)` jitter passed explicitly. -/
def get_delay_for_level (level : ThrottleLevel) (base_delay jitter : ℚ) : ℚ :=
  base_delay * multiplier level * jitter

/-- The dict returned by `check_and_throttle` (keys absent on some paths
are `Option`/defaulted). -/
structure CheckResult where
  throttle_level : ThrottleLevel
  should_pause : Bool
  pause_remaining : ℚ := 0
  delay : ℚ := 0
  reason : String := ""
  consecutive_high : Option Nat := none
deriving DecidableEq, Repr

/-- Common tail of `check_and_throttle`: set level, delay, last-check and
reason, and report no pause. -/
def commonTail (st : ThrottleState) (now : ℚ) (lv : ThrottleLevel)
    (reason : String) (jitter : ℚ) : CheckResult × ThrottleState :=
  ({ throttle_level := lv, should_pause := false
     delay := get_delay_for_level lv st.base_delay jitter
     reason := reason, consecutive_high := some st.consecutive_high_usage },
   { st with
     level := lv
     current_delay := get_delay_for_level lv st.base_delay jitter
     last_check := now
     reason := reason })

/-- Body of `check_and_throttle` past the active-pause early return. -/
def checkBody (st : ThrottleState) (now : ℚ) (r : Resources) (jitter : ℚ)
    (th : ResourceThresholds) : CheckResult × ThrottleState :=
  if (calculate_throttle_level th r).1 = .PAUSE then
    if st.consecutive_high_usage + 1 ≥ 3 then
      ({ throttle_level := .PAUSE, should_pause := true
         pause_remaining := min 60 (10 * ((st.consecutive_high_usage + 1 : Nat) : ℚ))
         delay := 0
         reason := "Auto-paused: " ++ (calculate_throttle_level th r).2 },
       { st with
         consecutive_high_usage := st.consecutive_high_usage + 1
         pause_until := some (now + min 60 (10 * ((st.consecutive_high_usage + 1 : Nat) : ℚ)))
         reason := "Auto-paused: " ++ (calculate_throttle_level th r).2 })
    else
      commonTail { st with consecutive_high_usage := st.consecutive_high_usage + 1 }
        now (calculate_throttle_level th r).1 (calculate_throttle_level th r).2
        jitter
  else
    if (calculate_throttle_level th r).1.value < ThrottleLevel.HEAVY.value then
      commonTail
        { st with
          consecutive_high_usage := st.consecutive_high_usage - 1
          pause_until := none }
        now (calculate_throttle_level th r).1 (calculate_throttle_level th r).2
        jitter
    else
      commonTail { st with pause_until := none }
        now (calculate_throttle_level th r).1 (calculate_throttle_level th r).2
        jitter

/-- `IntelligentThrottler.check_and_throttle` for one worker, with the
sampled resources, the current time and the jitter draw passed
explicitly.  (Agent registration/cleanup bookkeeping and the pause
callback are orthogonal to the state transition and omitted.) -/
def check_and_throttle (st : ThrottleState) (now : ℚ) (r : Resources)
    (jitter : ℚ) (th : ResourceThresholds) : CheckResult × ThrottleState :=
  match st.pause_until with
  | some p =>
    if now < p then
      ({ throttle_level := .PAUSE, should_pause := true
         pause_remaining := p - now, delay := 0
         reason := "Paused until resources stabilize" }, st)
    else checkBody st now r jitter th
  | none => checkBody st now r jitter th

end Throttle

namespace Throttle

/-- Per-model rate-limit configuration (`default_limits`, possibly merged
with a model-specific override by `_get_model_config`). -/
structure RateConfig where
  requests_per_minute : ℚ := 60
  tokens_per_minute : ℚ := 90000
  min_delay : ℚ := 1
  max_delay : ℚ := 30
  backoff_multiplier : ℚ := 2
deriving DecidableEq, Repr

/-- Per-model state created by `RateLimiter._get_state` (defaults are the
fresh-state values with the default `min_delay`). -/
structure RateState where
  requests_this_minute : Nat := 0
  tokens_this_minute : Nat := 0
  minute_start : ℚ := 0
  last_request : Option ℚ := none
  consecutive_errors : Nat := 0
  current_delay : ℚ := 1
  in_cooldown : Bool := false
  cooldown_until : Option ℚ := none
deriving DecidableEq, Repr

/-- The dict returned by `RateLimiter.acquire`. -/
structure AcquireResult where
  proceed : Bool
  wait_time : ℚ
  reason : String
deriving DecidableEq, Repr

/-- `RateLimiter.handle_rate_limit_error`: enter cooldown, choosing the
server-supplied (truthy) retry-after or the capped exponential backoff,
and bump the error counter.  Returns the new state and the cooldown
seconds. -/
def handle_rate_limit_error (cfg : RateConfig) (st : RateState) (now : ℚ)
    (retry_after : Option ℚ) : RateState × ℚ :=
  ({ st with
     in_cooldown := true
     cooldown_until := some (now +
       (match retry_after with
        | some ra =>
          if ra ≠ 0 then ra
          else min (cfg.max_delay * 2 ^ st.consecutive_errors) 300
        | none => min (cfg.max_delay * 2 ^ st.consecutive_errors) 300))
     consecutive_errors := st.consecutive_errors + 1 },
   match retry_after with
   | some ra =>
     if ra ≠ 0 then ra
     else min (cfg.max_delay * 2 ^ st.consecutive_errors) 300
   | none => min (cfg.max_delay * 2 ^ st.consecutive_errors) 300)

/-- Final stretch of `acquire`: wait out the remainder of `current_delay`
since the last request, plus the `random.uniform(0.1, 0.5)` jitter. -/
def normalPath (st : RateState) (now : ℚ) (jitter : ℚ) :
    AcquireResult × RateState :=
  ({ proceed := true
     wait_time :=
       (match st.last_request with
        | some lr =>
          if now - lr < st.current_delay then st.current_delay - (now - lr)
          else 0
        | none => st.current_delay) + jitter
     reason := "Normal rate limiting" }, st)

/-- Token-budget check of `acquire` (90% of the per-minute token
budget). -/
def tokenCheck (cfg : RateConfig) (st : RateState) (now : ℚ) (est : Nat)
    (jitter : ℚ) : AcquireResult × RateState :=
  if ((st.tokens_this_minute + est : Nat) : ℚ) ≥
      cfg.tokens_per_minute * (9/10) then
    ({ proceed := true
       wait_time := max (60 - (now - st.minute_start)) st.current_delay
       reason := "Approaching token limit" }, st)
  else normalPath st now jitter

/-- Request-budget check of `acquire` (90% of the per-minute request
budget); on pressure it grows `current_delay` by 1.5 (capped) before
either returning the reset hint or falling through. -/
def reqCheck (cfg : RateConfig) (st : RateState) (now : ℚ) (est : Nat)
    (jitter : ℚ) : AcquireResult × RateState :=
  if ((st.requests_this_minute : Nat) : ℚ) ≥
      cfg.requests_per_minute * (9/10) then
    if 60 - (now - st.minute_start) > 0 then
      ({ proceed := true
         wait_time := 60 - (now - st.minute_start)
         reason := "Approaching rate limit, waiting for reset" },
       { st with current_delay := min (st.current_delay * (3/2)) cfg.max_delay })
    else
      tokenCheck cfg
        { st with current_delay := min (st.current_delay * (3/2)) cfg.max_delay }
        now est jitter
  else tokenCheck cfg st now est jitter

/-- Fixed-window reset of `acquire`: clear the counters when more than 60
seconds have passed since the window anchor. -/
def windowReset (cfg : RateConfig) (st : RateState) (now : ℚ) : RateState :=
  if now - st.minute_start ≥ 60 then
    { st with
      requests_this_minute := 0
      tokens_this_minute := 0
      minute_start := now
      current_delay := cfg.min_delay }
  else st

/-- `acquire` past the cooldown gate. -/
def acquireMain (cfg : RateConfig) (st : RateState) (now : ℚ) (est : Nat)
    (jitter : ℚ) : AcquireResult × RateState :=
  reqCheck cfg (windowReset cfg st now) now est jitter

/-- Cooldown gate of `acquire`: `if state["in_cooldown"] and
state["cooldown_until"]`, refuse while the deadline is ahead, else clear
the cooldown (resetting the error counter) and continue. -/
def cooldownGate (cfg : RateConfig) (st : RateState) (now : ℚ) (est : Nat)
    (jitter : ℚ) : Bool → Option ℚ → AcquireResult × RateState
  | true, some cu =>
    if now < cu then
      ({ proceed := false, wait_time := cu - now
         reason := "Rate limit cooldown" }, st)
    else
      acquireMain cfg
        { st with
          in_cooldown := false
          cooldown_until := none
          consecutive_errors := 0 }
        now est jitter
  | true, none => acquireMain cfg st now est jitter
  | false, _ => acquireMain cfg st now est jitter

/-- `RateLimiter.acquire` for one model, with the current time, token
estimate and jitter passed explicitly (the per-model config and state are
those `_get_model_config` / `_get_state` would return). -/
def acquire (cfg : RateConfig) (st : RateState) (now : ℚ) (est : Nat)
    (jitter : ℚ) : AcquireResult × RateState :=
  cooldownGate cfg st now est jitter st.in_cooldown st.cooldown_until

end Throttle

namespace Throttle

theorem cpuPart_eq_band (th : ResourceThresholds) (c : ℚ) :
    (cpuPart th c).1 =
      bandLevel th.cpu_pause th.cpu_heavy th.cpu_moderate th.cpu_light c := by
  unfold cpuPart bandLevel
  split_ifs <;> rfl

theorem memPart_eq_max (th : ResourceThresholds) (pl : ThrottleLevel)
    (prs : List String) (m : ℚ) :
    (memPart th (pl, prs) m).1 =
      levelMax pl
        (bandLevel th.memory_pause th.memory_heavy th.memory_moderate
          th.memory_light m) := by
  cases pl <;>
    (unfold memPart bandLevel levelMax updIf
     split_ifs <;>
       first
         | rfl
         | (simp only [ThrottleLevel.value] at *; omega))

theorem calc_eq_band (th : ResourceThresholds) (r : Resources) :
    (calculate_throttle_level th r).1 =
      levelMax
        (bandLevel th.cpu_pause th.cpu_heavy th.cpu_moderate th.cpu_light
          r.cpu_percent)
        (bandLevel th.memory_pause th.memory_heavy th.memory_moderate
          th.memory_light r.memory_percent) := by
  unfold calculate_throttle_level
  rw [show cpuPart th r.cpu_percent =
      ((cpuPart th r.cpu_percent).1, (cpuPart th r.cpu_percent).2) from rfl,
    memPart_eq_max, cpuPart_eq_band]

theorem bandLevel_mono (pse hvy mdr lgt : ℚ) (x y : ℚ) (hxy : x ≤ y) :
    (bandLevel pse hvy mdr lgt x).value ≤
      (bandLevel pse hvy mdr lgt y).value := by
  unfold bandLevel
  split_ifs <;> first | decide | (exfalso; linarith)

theorem levelMax_mono (a1 a2 b1 b2 : ThrottleLevel)
    (ha : a1.value ≤ a2.value) (hb : b1.value ≤ b2.value) :
    (levelMax a1 b1).value ≤ (levelMax a2 b2).value := by
  unfold levelMax
  split_ifs <;> omega

/-- C6: the throttle level is monotone in the resource sample (CPU and
memory componentwise), and for every sample it equals the maximum of the
per-dimension band levels for CPU and memory under the four cutoffs. -/
theorem throttle_level_monotone (th : ResourceThresholds)
    (r1 r2 r : Resources)
    (hcpu : r1.cpu_percent ≤ r2.cpu_percent)
    (hmem : r1.memory_percent ≤ r2.memory_percent) :
    (calculate_throttle_level th r1).1.value ≤
      (calculate_throttle_level th r2).1.value ∧
    (calculate_throttle_level th r).1 =
      levelMax
        (bandLevel th.cpu_pause th.cpu_heavy th.cpu_moderate th.cpu_light
          r.cpu_percent)
        (bandLevel th.memory_pause th.memory_heavy th.memory_moderate
          th.memory_light r.memory_percent) := by
  constructor
  · rw [calc_eq_band th r1, calc_eq_band th r2]
    exact levelMax_mono _ _ _ _
      (bandLevel_mono _ _ _ _ _ _ hcpu)
      (bandLevel_mono _ _ _ _ _ _ hmem)
  · exact calc_eq_band th r

/-- C6 witness: monotonicity instantiated at the default thresholds on
the concrete samples (50, 50) and (80, 90). -/
theorem throttle_level_monotone_witness :
    ((50:ℚ) ≤ 80 ∧ (50:ℚ) ≤ 90) ∧
    (calculate_throttle_level {} { cpu_percent := 50, memory_percent := 50 }).1.value ≤
      (calculate_throttle_level {} { cpu_percent := 80, memory_percent := 90 }).1.value := by
  refine ⟨⟨by norm_num, by norm_num⟩, ?_⟩
  exact (throttle_level_monotone {} { cpu_percent := 50, memory_percent := 50 }
    { cpu_percent := 80, memory_percent := 90 }
    { cpu_percent := 0, memory_percent := 0 }
    (by norm_num) (by norm_num)).1

end Throttle

namespace Throttle

theorem checkBody_nonpause (st : ThrottleState) (now : ℚ) (r : Resources)
    (jitter : ℚ) (th : ResourceThresholds)
    (hlv : (calculate_throttle_level th r).1 ≠ .PAUSE) :
    (checkBody st now r jitter th).2.pause_until = none ∧
    (checkBody st now r jitter th).2.consecutive_high_usage =
      (if (calculate_throttle_level th r).1.value <
          ThrottleLevel.HEAVY.value then
        st.consecutive_high_usage - 1
      else st.consecutive_high_usage) ∧
    (checkBody st now r jitter th).2.current_delay =
      st.base_delay * multiplier (calculate_throttle_level th r).1 * jitter ∧
    (checkBody st now r jitter th).1.delay =
      (checkBody st now r jitter th).2.current_delay ∧
    (checkBody st now r jitter th).1.should_pause = false := by
  unfold checkBody
  rw [if_neg hlv]
  split_ifs with hv <;> exact ⟨rfl, rfl, rfl, rfl, rfl⟩

/-- C7 (amended): when no pause is active and the resolved level is not
Pause, `check_and_throttle` clears `pause_until`, sets `current_delay`
to `base_delay × multiplier(level) × jitter` (with jitter drawn from
[0.8, 1.2]) and reports that delay without pausing; the consecutive-high-
usage counter is decremented (floored at 0) only when the level is below
Heavy — at level Heavy it is left unchanged. -/
theorem check_and_throttle_nonpause (st : ThrottleState) (now : ℚ)
    (r : Resources) (jitter : ℚ) (th : ResourceThresholds)
    (hnp : ∀ p, st.pause_until = some p → ¬now < p)
    (hlv : (calculate_throttle_level th r).1 ≠ .PAUSE)
    (hj : 4/5 ≤ jitter ∧ jitter ≤ 6/5) :
    (check_and_throttle st now r jitter th).2.pause_until = none ∧
    (check_and_throttle st now r jitter th).2.consecutive_high_usage =
      (if (calculate_throttle_level th r).1.value <
          ThrottleLevel.HEAVY.value then
        st.consecutive_high_usage - 1
      else st.consecutive_high_usage) ∧
    (check_and_throttle st now r jitter th).2.current_delay =
      st.base_delay * multiplier (calculate_throttle_level th r).1 * jitter ∧
    (check_and_throttle st now r jitter th).1.delay =
      (check_and_throttle st now r jitter th).2.current_delay ∧
    (check_and_throttle st now r jitter th).1.should_pause = false := by
  have hred : check_and_throttle st now r jitter th =
      checkBody st now r jitter th := by
    unfold check_and_throttle
    rcases hp : st.pause_until with _ | p
    · rfl
    · simp only [if_neg (hnp p hp)]
  rw [hred]
  exact checkBody_nonpause st now r jitter th hlv

/-- Concrete state for the C7 counterexample: two consecutive high-usage
ticks already recorded, no active pause. -/
def cexThrottleState : ThrottleState :=
  { level := .NONE, base_delay := 1, current_delay := 1, pause_until := none
    consecutive_high_usage := 2, last_check := 0, reason := "" }

/-- Concrete sample for the C7 counterexample: CPU at 85% resolves to
Heavy under the default thresholds. -/
def cexResources : Resources := { cpu_percent := 85, memory_percent := 0 }

/-- C7 counterexample: at resolved level Heavy (not Pause) the
consecutive-high-usage counter is NOT decremented — it stays at 2 where
the claim requires 1. -/
theorem check_heavy_keeps_counter :
    (check_and_throttle cexThrottleState 0 cexResources 1 {}).1.throttle_level
      = .HEAVY ∧
    (ThrottleLevel.HEAVY ≠ ThrottleLevel.PAUSE) ∧
    (check_and_throttle cexThrottleState 0 cexResources 1
      {}).2.consecutive_high_usage = 2 ∧
    cexThrottleState.consecutive_high_usage - 1 = 1 := by
  refine ⟨?_, by decide, ?_, rfl⟩ <;> decide

/-- C7 witness: the amended theorem instantiated at the Heavy sample with
jitter 1: pause cleared, counter kept, delay = 1 × 5 × 1. -/
theorem check_and_throttle_nonpause_witness :
    ((calculate_throttle_level ({} : ResourceThresholds) cexResources).1 ≠
      ThrottleLevel.PAUSE) ∧
    (check_and_throttle cexThrottleState 0 cexResources 1 {}).2.current_delay =
      cexThrottleState.base_delay *
        multiplier (calculate_throttle_level {} cexResources).1 * 1 := by
  refine ⟨by decide, ?_⟩
  exact (check_and_throttle_nonpause cexThrottleState 0 cexResources 1 {}
    (by intro p hp; cases hp) (by decide)
    (by constructor <;> norm_num)).2.2.1

end Throttle

namespace Throttle

theorem acquireMain_proceeds (cfg : RateConfig) (st : RateState) (now : ℚ)
    (est : Nat) (jitter : ℚ) :
    (acquireMain cfg st now est jitter).1.proceed = true := by
  unfold acquireMain reqCheck tokenCheck normalPath
  split_ifs <;> rfl

theorem acquire_in_cooldown (cfg : RateConfig) (st : RateState) (now : ℚ)
    (est : Nat) (jitter : ℚ) (cu : ℚ) (hic : st.in_cooldown = true)
    (hcu : st.cooldown_until = some cu) (hlt : now < cu) :
    (acquire cfg st now est jitter).1.proceed = false ∧
    (acquire cfg st now est jitter).1.wait_time = cu - now := by
  unfold acquire
  rw [hic, hcu]
  simp only [cooldownGate]
  rw [if_pos hlt]
  exact ⟨rfl, rfl⟩

theorem acquire_after_cooldown (cfg : RateConfig) (st : RateState)
    (now : ℚ) (est : Nat) (jitter : ℚ) (cu : ℚ)
    (hcu : st.cooldown_until = some cu) (hge : ¬now < cu) :
    (acquire cfg st now est jitter).1.proceed = true := by
  unfold acquire
  rw [hcu]
  rcases hic : st.in_cooldown
  · simp only [cooldownGate]
    exact acquireMain_proceeds cfg st now est jitter
  · simp only [cooldownGate, if_neg hge]
    exact acquireMain_proceeds cfg _ now est jitter

/-- C8: `handle_rate_limit_error` enters a cooldown of `retryAfter`
seconds when a positive one is supplied, else
`min(maxDelay × 2^consecutiveErrors, 300)` seconds, and increments the
consecutive-error counter; every `acquire` strictly before the cooldown
deadline returns `proceed = false` with the remaining cooldown as its
wait time, and any `acquire` at or after the deadline returns
`proceed = true`. -/
theorem rate_cooldown (cfg : RateConfig) (st : RateState) (t0 : ℚ)
    (retry_after : Option ℚ) (now1 now2 : ℚ) (tok1 tok2 : Nat)
    (j1 j2 : ℚ) :
    (∀ ra, retry_after = some ra → 0 < ra →
      (handle_rate_limit_error cfg st t0 retry_after).2 = ra) ∧
    (retry_after = none →
      (handle_rate_limit_error cfg st t0 retry_after).2 =
        min (cfg.max_delay * 2 ^ st.consecutive_errors) 300) ∧
    (handle_rate_limit_error cfg st t0 retry_after).1.consecutive_errors =
      st.consecutive_errors + 1 ∧
    (handle_rate_limit_error cfg st t0 retry_after).1.cooldown_until =
      some (t0 + (handle_rate_limit_error cfg st t0 retry_after).2) ∧
    (now1 < t0 + (handle_rate_limit_error cfg st t0 retry_after).2 →
      (acquire cfg (handle_rate_limit_error cfg st t0 retry_after).1 now1
        tok1 j1).1.proceed = false ∧
      (acquire cfg (handle_rate_limit_error cfg st t0 retry_after).1 now1
        tok1 j1).1.wait_time =
        (t0 + (handle_rate_limit_error cfg st t0 retry_after).2) - now1) ∧
    (¬now2 < t0 + (handle_rate_limit_error cfg st t0 retry_after).2 →
      (acquire cfg (handle_rate_limit_error cfg st t0 retry_after).1 now2
        tok2 j2).1.proceed = true) := by
  refine ⟨?_, ?_, rfl, rfl, ?_, ?_⟩
  · rintro ra rfl hra
    unfold handle_rate_limit_error
    simp only [if_pos (ne_of_gt hra)]
  · rintro rfl
    rfl
  · intro hlt
    exact acquire_in_cooldown cfg _ now1 tok1 j1 _ rfl rfl hlt
  · intro hge
    exact acquire_after_cooldown cfg _ now2 tok2 j2 _ rfl hge

/-- C8 witness: a rate-limit error at time 0 with retry-after 10 blocks
`acquire` at time 5 (with a 5-second wait) and admits it at time 12. -/
theorem rate_cooldown_witness :
    ((5:ℚ) < 0 + (handle_rate_limit_error {} {} 0 (some 10)).2) ∧
    (acquire {} (handle_rate_limit_error {} {} 0 (some 10)).1 5 0
      0).1.proceed = false ∧
    (acquire {} (handle_rate_limit_error {} {} 0 (some 10)).1 12 0
      0).1.proceed = true := by
  have h := rate_cooldown ({} : RateConfig) ({} : RateState) 0 (some 10)
    5 12 0 0 0 0
  have hc : (handle_rate_limit_error ({} : RateConfig) ({} : RateState) 0
      (some 10)).2 = 10 := h.1 10 rfl (by norm_num)
  have h5 : (5:ℚ) < 0 + (handle_rate_limit_error ({} : RateConfig)
      ({} : RateState) 0 (some 10)).2 := by
    rw [hc]
    norm_num
  have h12 : ¬(12:ℚ) < 0 + (handle_rate_limit_error ({} : RateConfig)
      ({} : RateState) 0 (some 10)).2 := by
    rw [hc]
    norm_num
  exact ⟨h5, (h.2.2.2.2.1 h5).1, h.2.2.2.2.2 h12⟩

end Throttle
